import Mathlib

/-
Verification of the YEGI_API section-extraction core.

Shallow embedding of:
  app/controllers/extract_headers.py   (PDFSectionExtractor)
  app/controllers/text_preprocessor.py (TextPreprocessor)

Lines of text are modelled as List Char (a Python str).  Each regular
expression of the source is modelled by an executable matcher translated
from the pattern; where the pattern is compiled with re.IGNORECASE the
matcher receives the case-folded line (folding with pyLower), which is
equivalent because every matcher below only compares characters.
Python regex features used by the source (greedy quantifiers with the
limited backtracking the concrete patterns allow, anchored match vs
search) are reproduced exactly; each matcher's doc comment names the
pattern it models.  The dollar anchor is modelled as end-of-input, which
is exact for the newline-free lines produced by prepare_lines.
-/

namespace Yegi

/-- Case folding of one character as Python str.lower / re.IGNORECASE act
on the ASCII and Latin-1 letters that occur in the source's patterns:
A-Z and the accented uppercase range U+00C0-U+00DE (except the
multiplication sign U+00D7) map down by 32. -/
def pyLower (c : Char) : Char :=
  if 65 ≤ c.toNat ∧ c.toNat ≤ 90 then Char.ofNat (c.toNat + 32)
  else if 192 ≤ c.toNat ∧ c.toNat ≤ 222 ∧ c.toNat ≠ 215 then Char.ofNat (c.toNat + 32)
  else c

/-- Whitespace as Python str.isspace and the regex class backslash-s see it
(ASCII whitespace, the C1 separators, NEL, NBSP and the Unicode space
separators). -/
def isPySpace (c : Char) : Bool :=
  let n := c.toNat
  n == 9 || n == 10 || n == 11 || n == 12 || n == 13 ||
  n == 28 || n == 29 || n == 30 || n == 31 || n == 32 ||
  n == 133 || n == 160 || n == 5760 ||
  (decide (8192 ≤ n) && decide (n ≤ 8202)) ||
  n == 8232 || n == 8233 || n == 8239 || n == 8287 || n == 12288

/-- Line-break characters recognised by Python str.splitlines. -/
def isLineBreakChar (c : Char) : Bool :=
  let n := c.toNat
  n == 10 || n == 11 || n == 12 || n == 13 ||
  n == 28 || n == 29 || n == 30 || n == 133 || n == 8232 || n == 8233

/-- ASCII decimal digit, modelling the regex class backslash-d. -/
def isAsciiDigit (c : Char) : Bool :=
  decide (48 ≤ c.toNat) && decide (c.toNat ≤ 57)

/-- Alphabetic character as Python str.isalpha sees it on the ASCII and
Latin-1 range (A-Z, a-z, the accented letters U+00C0-U+00FF except the
multiplication and division signs, and U+00AA, U+00B5, U+00BA). -/
def pyIsAlphaChar (c : Char) : Bool :=
  let n := c.toNat
  (decide (65 ≤ n) && decide (n ≤ 90)) || (decide (97 ≤ n) && decide (n ≤ 122)) ||
  (decide (192 ≤ n) && decide (n ≤ 255) && !(n == 215) && !(n == 247)) ||
  n == 170 || n == 181 || n == 186

/-- Word character for the regex class backslash-w: letters, digits and
the underscore. -/
def isWordChar (c : Char) : Bool :=
  pyIsAlphaChar c || isAsciiDigit c || c == '_'

/-- Characters of the class [IVXLCDM] after case folding. -/
def romanChar (c : Char) : Bool :=
  c == 'i' || c == 'v' || c == 'x' || c == 'l' || c == 'c' || c == 'd' || c == 'm'

/-- Case folding of a whole line. -/
def lowerL (l : List Char) : List Char :=
  l.map pyLower

/-- Characters of a Lean string. -/
def strL (s : String) : List Char :=
  s.data

/-- Python str.strip: drop whitespace from both ends. -/
def pyStripL (l : List Char) : List Char :=
  ((l.dropWhile isPySpace).reverse.dropWhile isPySpace).reverse

/-- Literal-prefix consumption: if p is a prefix of l return the rest. -/
def dropPfx? : List Char → List Char → Option (List Char)
  | [], l => some l
  | _ :: _, [] => none
  | p :: ps, c :: cs => if c = p then dropPfx? ps cs else none

/-- Helper for the tail pattern of one-or-more-spaces-then-any-character:
having consumed at least one whitespace character, succeed when a
character usable for the dot (any character except a newline) can still
be reached through further whitespace.  This reproduces the regex
backtracking of the fragment exactly. -/
def somethingAfterSpaces : List Char → Bool
  | [] => false
  | c :: cs => !(c == '\n') || (isPySpace c && somethingAfterSpaces cs)

/-- Matches the regex fragment of one-or-more whitespace characters
followed by one-or-more arbitrary non-newline characters. -/
def spacesThenSomething : List Char → Bool
  | [] => false
  | c :: cs => isPySpace c && somethingAfterSpaces cs

/-- Consume one or more ASCII digits greedily, returning the rest;
models a plus-quantified backslash-d group. -/
def takeDigits1 (l : List Char) : Option (List Char) :=
  match l with
  | c :: cs => if isAsciiDigit c then some (cs.dropWhile isAsciiDigit) else none
  | [] => none

/-- After the first digit of a dotted section number, greedily consume
the remaining digits and dot-digit groups of the base numbering pattern,
returning the consumed characters and the rest.  A dot is consumed only
when a digit follows it, exactly as the greedy star of the group behaves
on this pattern. -/
def numTokAux : List Char → (List Char × List Char)
  | [] => ([], [])
  | c :: cs =>
    if isAsciiDigit c then
      let tr := numTokAux cs
      (c :: tr.1, tr.2)
    else if c = '.' then
      match cs with
      | [] => ([], ['.'])
      | d :: ds =>
        if isAsciiDigit d then
          let tr := numTokAux ds
          ('.' :: d :: tr.1, tr.2)
        else ([], '.' :: d :: ds)
    else ([], c :: cs)

/-- Parse the base numbering pattern SECTION_NUMBER_PATTERN (a dotted
Arabic number, or else a Roman-numeral letter run) at the start of the
line, returning the matched token and the rest.  The regex alternation
tries the Arabic branch first; the branches need disjoint first
characters, so committing on the first character is faithful. -/
def parseNumToken (l : List Char) : Option (List Char × List Char) :=
  match l with
  | [] => none
  | c :: cs =>
    if isAsciiDigit c then
      let tr := numTokAux cs
      some (c :: tr.1, tr.2)
    else
      let t := (c :: cs).takeWhile romanChar
      if t = [] then none else some (t, (c :: cs).dropWhile romanChar)

/-- Trailing part allowed by RE_SECTION_NUMBER_ONLY after the numbering
token: an optional period or closing parenthesis, then the end. -/
def numberTrail (r : List Char) : Bool :=
  r = [] || r = ['.'] || r = [')']

/-- RE_SECTION_NUMBER_ONLY: the numbering token, an optional period or
closing parenthesis, nothing else. -/
def matchSectionNumberOnly (l : List Char) : Bool :=
  match parseNumToken l with
  | some tr => numberTrail tr.2
  | none => false

/-- Tail of RE_SECTION after the numbering token: an optional period or
closing parenthesis, then one-or-more whitespace, then at least one
non-newline character.  Skipping a present separator cannot help the
match (whitespace never equals a period or parenthesis), so consuming it
greedily is faithful. -/
def sepThenSpacesText (r : List Char) : Bool :=
  match r with
  | [] => false
  | c :: cs =>
    if c = '.' || c = ')' then spacesThenSomething cs
    else spacesThenSomething (c :: cs)

/-- RE_SECTION: numbering token, optional separator, whitespace, text.
Returns group 1 (the numbering token) on success. -/
def matchSectionLine (l : List Char) : Option (List Char) :=
  match parseNumToken l with
  | some tr => if sepThenSpacesText tr.2 then some tr.1 else none
  | none => none

/-- Tail shared by the caption patterns: optional whitespace, digits, an
optional period or colon, whitespace, then text. -/
def capTail (r : List Char) : Bool :=
  match takeDigits1 (r.dropWhile isPySpace) with
  | some r2 =>
    match r2 with
    | c :: cs => if c = '.' || c = ':' then spacesThenSomething cs else spacesThenSomething (c :: cs)
    | [] => false
  | none => false

/-- Consumption of the optional leading period of the caption and
inline figure patterns. -/
def dotStrip (l : List Char) : List Char :=
  match l with
  | c :: cs => if c = '.' then cs else l
  | [] => l

/-- After a fig or figure keyword: an optional period, then the caption
tail. -/
def figCapAfter (r : List Char) : Bool :=
  capTail (dotStrip r)

/-- RE_FIGURE_CAPTION: fig or figure, optional period, optional
whitespace, digits, optional period or colon, whitespace, text.  Both
alternation branches are tried, as the regex engine does. -/
def matchFigureCaption (l : List Char) : Bool :=
  (match dropPfx? (strL "fig") l with
   | some r => figCapAfter r
   | none => false) ||
  (match dropPfx? (strL "figure") l with
   | some r => figCapAfter r
   | none => false)

/-- RE_TABLE_CAPTION: table, optional whitespace, digits, optional
period or colon, whitespace, text. -/
def matchTableCaption (l : List Char) : Bool :=
  match dropPfx? (strL "table") l with
  | some r => capTail r
  | none => false

/-- After a fig, figure or table keyword for the inline patterns:
optional period (figure only), optional whitespace, at least one digit. -/
def inlineTail (r : List Char) : Bool :=
  match r.dropWhile isPySpace with
  | c :: _ => isAsciiDigit c
  | [] => false

/-- RE_FIGURE_INLINE: fig or figure, optional period, optional
whitespace, a digit. -/
def matchFigureInline (l : List Char) : Bool :=
  (match dropPfx? (strL "fig") l with
   | some r => inlineTail (dotStrip r)
   | none => false) ||
  (match dropPfx? (strL "figure") l with
   | some r => inlineTail (dotStrip r)
   | none => false)

/-- RE_TABLE_INLINE: table, optional whitespace, a digit. -/
def matchTableInline (l : List Char) : Bool :=
  match dropPfx? (strL "table") l with
  | some r => inlineTail r
  | none => false

/-- RE_EQUATION, optional opening parenthesis consumption. -/
def parenStrip (l : List Char) : List Char :=
  match l with
  | c :: cs => if c = '(' then cs else l
  | [] => l

/-- RE_EQUATION continued: digits after the optional parenthesis,
optional closing parenthesis, end of line. -/
def matchEquation (l : List Char) : Bool :=
  match takeDigits1 (parenStrip l) with
  | some r => r = [] || r = [')']
  | none => false

/-- Consume at least one whitespace character then any further
whitespace, as a plus-quantified backslash-s followed by a
non-whitespace requirement allows. -/
def expectSpaces1 (r : List Char) : Option (List Char) :=
  match r with
  | c :: cs => if isPySpace c then some (cs.dropWhile isPySpace) else none
  | [] => none

/-- Tail of RE_RQ_HEADER after the digits and period: whitespace, the
letters rq, digits, optional whitespace, a colon. -/
def rqTail (r2 : List Char) : Bool :=
  match expectSpaces1 r2 with
  | some r3 =>
    match dropPfx? (strL "rq") r3 with
    | some r4 =>
      match takeDigits1 r4 with
      | some r5 =>
        match r5.dropWhile isPySpace with
        | c :: _ => c == ':'
        | [] => false
      | none => false
    | none => false
  | none => false

/-- RE_RQ_HEADER: digits, a period, whitespace, the letters rq, digits,
optional whitespace, a colon (tail handled by rqTail). -/
def matchRQHeader (l : List Char) : Bool :=
  match takeDigits1 l with
  | some rr =>
    match rr with
    | c :: r2 => if c = '.' then rqTail r2 else false
    | [] => false
  | none => false

/-- Substring search for a literal pattern, as re.search does for the
URL pattern. -/
def containsSub (p : List Char) : List Char → Bool
  | [] => p = []
  | c :: cs => (dropPfx? p (c :: cs)).isSome || containsSub p cs

/-- RE_URL searched anywhere in the line: http://, https:// or www. -/
def matchURL (l : List Char) : Bool :=
  containsSub (strL "http://") l || containsSub (strL "https://") l ||
  containsSub (strL "www.") l

/-- Separator class of the abstract and keywords patterns: whitespace,
em-dash, colon or hyphen. -/
def headSepClass (r : List Char) : Bool :=
  match r with
  | c :: _ => isPySpace c || c == '—' || c == ':' || c == '-'
  | [] => false

/-- A heading word at the start of the line followed by one separator
character. -/
def matchWordThenSep (w l : List Char) : Bool :=
  match dropPfx? w l with
  | some r => headSepClass r
  | none => false

/-- RE_ABSTRACT: abstract or resumen, then a separator character. -/
def matchAbstract (l : List Char) : Bool :=
  matchWordThenSep (strL "abstract") l || matchWordThenSep (strL "resumen") l

/-- RE_KEYWORDS: keywords, index terms or palabras clave, then a
separator character. -/
def matchKeywords (l : List Char) : Bool :=
  matchWordThenSep (strL "keywords") l || matchWordThenSep (strL "index terms") l ||
  matchWordThenSep (strL "palabras clave") l

/-- RE_REFERENCES: references or referencias alone on the line, with
optional trailing whitespace. -/
def matchReferences (l : List Char) : Bool :=
  (match dropPfx? (strL "references") l with
   | some r => r.all isPySpace
   | none => false) ||
  (match dropPfx? (strL "referencias") l with
   | some r => r.all isPySpace
   | none => false)

/-- The bare-heading vocabulary of RE_SECTION_TEXT_ONLY; the final
alternative of the pattern, conclusiones with an optional final s,
contributes both conclusione and conclusiones. -/
def sectionPhrases : List (List Char) :=
  [strL "introduction", strL "background", strL "related work",
   strL "methodology", strL "methods", strL "dataset", strL "data",
   strL "experiments", strL "results", strL "discussion",
   strL "conclusion", strL "future work", strL "materials and methods",
   strL "trabajo relacionado", strL "metodología", strL "resultados",
   strL "discusión", strL "conclusione", strL "conclusiones"]

/-- RE_SECTION_TEXT_ONLY: the whole line is one of the fixed bare
headings. -/
def matchSectionTextOnly (l : List Char) : Bool :=
  sectionPhrases.any (fun p => decide (l = p))

/-- Helper of splitWs accumulating the current word reversed. -/
def splitWsAux : List Char → List Char → List (List Char)
  | [], acc => if acc = [] then [] else [acc.reverse]
  | c :: cs, acc =>
    if isPySpace c then
      if acc = [] then splitWsAux cs [] else acc.reverse :: splitWsAux cs []
    else splitWsAux cs (c :: acc)

/-- Python str.split with no argument: split on whitespace runs,
discarding empty words. -/
def splitWs (l : List Char) : List (List Char) :=
  splitWsAux l []

/-- NON_SECTION_KEYWORDS. -/
def nonSectionKeywords : List (List Char) :=
  [strL "figure", strL "fig", strL "table", strL "equation", strL "eq",
   strL "algorithm", strL "source", strL "note"]

/-- VALID_SECTION_STARTERS. -/
def validStarters : List (List Char) :=
  [strL "introduction", strL "background", strL "related", strL "method",
   strL "methods", strL "methodology", strL "experiment", strL "experiments",
   strL "results", strL "discussion", strL "conclusion", strL "future",
   strL "dataset", strL "data", strL "materials", strL "evaluation",
   strL "trabajo", strL "metodología", strL "resultados", strL "discusión",
   strL "conclusiones"]

/-- PDFSectionExtractor._looks_like_caption on the case-folded line:
more than ten words, or a word from NON_SECTION_KEYWORDS, or a trailing
period.  The source splits the folded line and tests endswith on the raw
line; folding fixes the period, so the folded test is identical. -/
def looksLikeCaption (l : List Char) : Bool :=
  decide (10 < (splitWs l).length) ||
  (splitWs l).any (fun w => nonSectionKeywords.any (fun k => decide (w = k))) ||
  (match l.getLast? with
   | some c => c == '.'
   | none => false)

/-- PDFSectionExtractor._looks_like_section on the case-folded line: the
first word belongs to VALID_SECTION_STARTERS.  The source indexes the
word list without a guard; it is only called on lines that matched
RE_SECTION_TEXT_ONLY and hence are nonempty, so the empty case is
unreachable there. -/
def looksLikeSection (l : List Char) : Bool :=
  match splitWs l with
  | w :: _ => validStarters.any (fun s => decide (s = w))
  | [] => false

/-- Python str.isalpha of the numbering token: nonempty and all
alphabetic. -/
def isAlphaTok (t : List Char) : Bool :=
  !(t.isEmpty) && t.all pyIsAlphaChar

/-- PDFSectionExtractor._numeric_depth: dot count plus one. -/
def numeric_depth (t : List Char) : Nat :=
  t.count '.' + 1

/-- PDFSectionExtractor.classify_line on the case-folded line: the
prioritized first-match-wins cascade of the source, in source order.
RE_EQUATION is compiled without IGNORECASE but its pattern contains no
cased character, and case folding moves letters to letters, so applying
it to the folded line is equivalent. -/
def classifyCore (l : List Char) : String :=
  if matchReferences l then "references"
  else if matchFigureCaption l || matchTableCaption l || matchFigureInline l ||
          matchTableInline l || matchEquation l then "noise"
  else if matchRQHeader l then "section"
  else if matchURL l then "noise"
  else if matchAbstract l then "abstract"
  else if matchKeywords l then "keywords"
  else if matchSectionNumberOnly l then "section_number"
  else
    match matchSectionLine l with
    | some tok =>
      if looksLikeCaption l then "noise"
      else if isAlphaTok tok then "section"
      else if numeric_depth tok = 1 then "section"
      else "subsection"
    | none =>
      if matchSectionTextOnly l then
        if looksLikeSection l then "section" else "noise"
      else "content"

/-- PDFSectionExtractor.classify_line on a raw line: every pattern it
consults is case-insensitive (or case-degenerate, see classifyCore), so
the line is folded once. -/
def classify_line (s : String) : String :=
  classifyCore (lowerL s.data)

/-- The classifier with the valid-starter sub-check of rule 9 removed,
following the spec's description of that sub-check as redundant: a line
matching the bare-heading vocabulary is labelled section outright.
Identical to classifyCore everywhere else. -/
def classifyCoreNoStarter (l : List Char) : String :=
  if matchReferences l then "references"
  else if matchFigureCaption l || matchTableCaption l || matchFigureInline l ||
          matchTableInline l || matchEquation l then "noise"
  else if matchRQHeader l then "section"
  else if matchURL l then "noise"
  else if matchAbstract l then "abstract"
  else if matchKeywords l then "keywords"
  else if matchSectionNumberOnly l then "section_number"
  else
    match matchSectionLine l with
    | some tok =>
      if looksLikeCaption l then "noise"
      else if isAlphaTok tok then "section"
      else if numeric_depth tok = 1 then "section"
      else "subsection"
    | none =>
      if matchSectionTextOnly l then "section"
      else "content"

/-- classify_line with the valid-starter sub-check removed, on a raw
line. -/
def classify_line_no_starter (s : String) : String :=
  classifyCoreNoStarter (lowerL s.data)

/-- Helper of pySplitLines accumulating the current line reversed. -/
def pySplitLinesAux : List Char → List Char → List (List Char)
  | [], acc => [acc.reverse]
  | '\r' :: '\n' :: cs, acc => acc.reverse :: pySplitLinesAux cs []
  | c :: cs, acc =>
    if isLineBreakChar c then acc.reverse :: pySplitLinesAux cs []
    else pySplitLinesAux cs (c :: acc)

/-- Python str.splitlines, up to trailing empty pieces: this model emits
a final empty line for input ending in a break and a single empty line
for empty input where Python emits none, a difference erased by the
blank-line filter of prepare_lines, its only consumer. -/
def pySplitLines (l : List Char) : List (List Char) :=
  pySplitLinesAux l []

/-- PDFSectionExtractor._prepare_lines: split the raw text into lines,
strip each, keep the nonempty ones. -/
def prepare_lines (s : String) : List String :=
  (((pySplitLines s.data).map pyStripL).filter (fun l => decide (l ≠ []))).map
    (fun l => String.mk l)

/-- One node of the section structure: the type tag, header and content
entries of the dict built by build_sections. -/
structure SectionNode where
  type : String
  header : Option String
  content : List String
deriving Repr, DecidableEq

/-- Header of a new section node: the pending number, if truthy, is
prefixed with a single space, as the f-string of build_sections does;
Python treats both None and the empty string as no pending number. -/
def mergedHeader (pending : Option String) (line : String) : String :=
  match pending with
  | some p => if p = "" then line else p ++ " " ++ line
  | none => line

/-- The loop of PDFSectionExtractor.build_sections: walk the lines with
the current open node and the pending-section-number slot, appending a
closed node when a header line begins a new one; stop at a references
line; the open node is appended after the loop.  Nodes are returned in
append order. -/
def build_go : List String → SectionNode → Option String → List SectionNode
  | [], current, _ => [current]
  | line :: rest, current, pending =>
    if classify_line line = "references" then [current]
    else if classify_line line = "section_number" then build_go rest current (some line)
    else if classify_line line = "section" then
      current :: build_go rest
        { type := "section", header := some (mergedHeader pending line), content := [] } none
    else if classify_line line = "subsection" then
      current :: build_go rest
        { type := "subsection", header := some line, content := [] } pending
    else if classify_line line = "noise" then build_go rest current pending
    else build_go rest { current with content := current.content ++ [line] } pending

/-- PDFSectionExtractor.build_sections starting from the empty preamble
node, on the prepared lines of the raw text. -/
def build_sections (raw : String) : List SectionNode :=
  build_go (prepare_lines raw) { type := "preamble", header := none, content := [] } none

/-- The header projection of extract_pdf_headers: headers of nodes of
type section whose header is truthy (present and nonempty). -/
def headers_only (ns : List SectionNode) : List String :=
  ns.filterMap fun n =>
    if n.type = "section" then
      match n.header with
      | some h => if h = "" then none else some h
      | none => none
    else none

/-- Helper of splitNl accumulating the current piece reversed. -/
def splitNlAux : List Char → List Char → List (List Char)
  | [], acc => [acc.reverse]
  | c :: cs, acc =>
    if c = '\n' then acc.reverse :: splitNlAux cs []
    else splitNlAux cs (c :: acc)

/-- Python str.split with separator newline, as _remove_margins uses. -/
def splitNl (l : List Char) : List (List Char) :=
  splitNlAux l []

/-- Deletion of every digit, the effect of substituting empty text for
each maximal digit run. -/
def removeDigits (l : List Char) : List Char :=
  l.filter (fun c => !isAsciiDigit c)

/-- Substitution of a single space for each maximal whitespace run. -/
def collapseWs : List Char → List Char
  | [] => []
  | [c] => if isPySpace c then [' '] else [c]
  | c :: d :: cs =>
    if isPySpace c && isPySpace d then collapseWs (d :: cs)
    else (if isPySpace c then ' ' else c) :: collapseWs (d :: cs)

/-- The running-header key of _remove_margins: digits stripped,
whitespace collapsed, case folded, applied to the stripped line. -/
def marginNormalize (st : List Char) : List Char :=
  lowerL (collapseWs (removeDigits st))

/-- The frequency table of _remove_margins: a map from normalized line
to occurrence count, built over the nonempty stripped lines, modelling
the dict with default count zero. -/
def buildFreq : List (List Char) → (List Char → Nat) → (List Char → Nat)
  | [], f => f
  | line :: rest, f =>
    if pyStripL line = [] then buildFreq rest f
    else
      buildFreq rest fun s =>
        if s = marginNormalize (pyStripL line) then f s + 1 else f s

/-- Result of the margin-removal stage: the retained lines and the two
warning flags it can set. -/
structure MarginsResult where
  filtered : List (List Char)
  pageNumbersRemoved : Bool
  repeatedHeadersRemoved : Bool
deriving Repr, DecidableEq

/-- The filtering loop of _remove_margins: skip blank lines, drop
all-digit lines flagging page numbers, drop lines whose normalized form
has frequency above one flagging repeated headers, keep the rest in
order. -/
def marginsGo (freq : List Char → Nat) : List (List Char) → Bool → Bool → MarginsResult
  | [], pg, rp => { filtered := [], pageNumbersRemoved := pg, repeatedHeadersRemoved := rp }
  | line :: rest, pg, rp =>
    if pyStripL line = [] then marginsGo freq rest pg rp
    else if (pyStripL line).all isAsciiDigit then marginsGo freq rest true rp
    else if 1 < freq (marginNormalize (pyStripL line)) then marginsGo freq rest pg true
    else
      let r := marginsGo freq rest pg rp
      { r with filtered := line :: r.filtered }

/-- TextPreprocessor._remove_margins: build the frequency table over the
newline-split lines, then filter; the caller joins the retained lines
with newlines and strips the result. -/
def remove_margins (text : List Char) : MarginsResult :=
  let lines := splitNl text
  marginsGo (buildFreq lines (fun _ => 0)) lines false false

/-- The cleaned text _remove_margins stores: the retained lines joined
by newlines, stripped. -/
def remove_margins_text (text : List Char) : List Char :=
  pyStripL (List.intercalate ['\n'] (remove_margins text).filtered)

/-- Case-insensitive literal-prefix consumption: pattern characters are
already folded, text characters are folded one by one. -/
def dropPfxCI? : List Char → List Char → Option (List Char)
  | [], l => some l
  | _ :: _, [] => none
  | p :: ps, c :: cs => if pyLower c = p then dropPfxCI? ps cs else none

/-- One whole word of ws matches at the head of the suffix, with the
word-boundary test against the preceding character (prev, none at the
start of the text) and the character following the match. -/
def wordHereB (w : List Char) (prev : Option Char) (suffix : List Char) : Bool :=
  match dropPfxCI? w suffix with
  | some rest =>
    (match prev with
     | some c => !isWordChar c
     | none => true) &&
    (match rest with
     | c :: _ => !isWordChar c
     | [] => true)
  | none => false

/-- The scan of re.search for a whole-word alternation: try each
position left to right, returning the index of the leftmost match. -/
def searchAux (ws : List (List Char)) : List Char → Option Char → Nat → Option Nat
  | suffix, prev, i =>
    if ws.any (fun w => wordHereB w prev suffix) then some i
    else
      match suffix with
      | [] => none
      | c :: cs => searchAux ws cs (some c) (i + 1)

/-- Index of the leftmost whole-word occurrence of any word of ws. -/
def find_word (ws : List (List Char)) (text : List Char) : Option Nat :=
  searchAux ws text none 0

/-- The abstract alternation of _remove_sections. -/
def abstractWords : List (List Char) :=
  [strL "abstract", strL "resumen"]

/-- The introduction word of _remove_sections. -/
def introWords : List (List Char) :=
  [strL "introduction"]

/-- The references alternation of _remove_sections. -/
def refsWords : List (List Char) :=
  [strL "references", strL "bibliography"]

/-- The introduction trim of _remove_sections: drop everything before
the leftmost whole-word introduction, if present. -/
def introCut (text : List Char) : List Char :=
  match find_word introWords text with
  | some i => text.drop i
  | none => text

/-- Result of the abstract-and-references stage: the new text and the
two warning flags it can set. -/
structure SectionsResult where
  text : List Char
  abstractDetected : Bool
  referencesRemoved : Bool
deriving Repr, DecidableEq

/-- TextPreprocessor._remove_sections: flag a whole-word abstract or
resumen anywhere in the stage input; trim everything before the first
whole-word introduction; then cut from the first whole-word references
or bibliography of the remaining text to the end, flagging the removal;
finally strip. -/
def remove_sections (text : List Char) : SectionsResult :=
  let t1 := introCut text
  match find_word refsWords t1 with
  | some i =>
    { text := pyStripL (t1.take i),
      abstractDetected := (find_word abstractWords text).isSome,
      referencesRemoved := true }
  | none =>
    { text := pyStripL t1,
      abstractDetected := (find_word abstractWords text).isSome,
      referencesRemoved := false }

/-- The previous character of position k of a text, none at the start. -/
def prevCharAt (text : List Char) (k : Nat) : Option Char :=
  if k = 0 then none else text.get? (k - 1)

/-- Position-indexed whole-word occurrence: some word of ws matches as a
whole word at index k of the text.  Stated by direct indexing,
independently of the scanning order of find_word. -/
def word_at (ws : List (List Char)) (text : List Char) (k : Nat) : Bool :=
  ws.any fun w => wordHereB w (prevCharAt text k) (text.drop k)

/-- Generalization of word_at to a suffix of the text with the carried
previous character, used to reason about the left-to-right scan. -/
def wordAtFrom (ws : List (List Char)) (prev : Option Char) (suffix : List Char) (k : Nat) : Bool :=
  ws.any fun w =>
    wordHereB w (if k = 0 then prev else suffix.get? (k - 1)) (suffix.drop k)

theorem dropPfx_append (p r : List Char) : dropPfx? p (p ++ r) = some r := by
  induction p with
  | nil => rfl
  | cons c cs ih => simp [dropPfx?, ih]

theorem dropPfx_eq_some {p l r : List Char} (h : dropPfx? p l = some r) : l = p ++ r := by
  induction p generalizing l with
  | nil =>
    simp only [dropPfx?, Option.some.injEq] at h
    simp [h]
  | cons c cs ih =>
    cases l with
    | nil => simp [dropPfx?] at h
    | cons d ds =>
      by_cases hd : d = c
      · subst hd
        simp only [dropPfx?, if_pos rfl] at h
        simpa using ih h
      · simp [dropPfx?, hd] at h

theorem build_go_shape (lines : List String) :
    ∀ (cur : SectionNode) (pending : Option String),
    ∃ c rest,
      build_go lines cur pending =
        { type := cur.type, header := cur.header, content := c } :: rest ∧
      ∀ n ∈ rest, n.type = "section" ∨ n.type = "subsection" := by
  induction lines with
  | nil =>
    intro cur pending
    exact ⟨cur.content, [], rfl, by simp⟩
  | cons line rest ih =>
    intro cur pending
    simp only [build_go]
    split_ifs with h1 h2 h3 h4 h5
    · exact ⟨cur.content, [], rfl, by simp⟩
    · exact ih cur (some line)
    · obtain ⟨c, r2, heq, hall⟩ :=
        ih { type := "section", header := some (mergedHeader pending line), content := [] } none
      refine ⟨cur.content, _, rfl, ?_⟩
      intro n hn
      rw [heq, List.mem_cons] at hn
      rcases hn with hn | hn
      · subst hn; exact Or.inl rfl
      · exact hall n hn
    · obtain ⟨c, r2, heq, hall⟩ :=
        ih { type := "subsection", header := some line, content := [] } pending
      refine ⟨cur.content, _, rfl, ?_⟩
      intro n hn
      rw [heq, List.mem_cons] at hn
      rcases hn with hn | hn
      · subst hn; exact Or.inr rfl
      · exact hall n hn
    · exact ih cur pending
    · exact ih { cur with content := cur.content ++ [line] } pending

theorem build_go_no_heads (lines : List String) :
    ∀ (cur : SectionNode) (pending : Option String),
    (∀ l ∈ lines, ¬ classify_line l = "section" ∧ ¬ classify_line l = "subsection") →
    ∃ c, build_go lines cur pending = [{ type := cur.type, header := cur.header, content := c }] := by
  induction lines with
  | nil =>
    intro cur pending _
    exact ⟨cur.content, rfl⟩
  | cons line rest ih =>
    intro cur pending h
    have hline := h line (by simp)
    have hrest : ∀ l ∈ rest, ¬ classify_line l = "section" ∧ ¬ classify_line l = "subsection" :=
      fun l hl => h l (by simp [hl])
    simp only [build_go]
    split_ifs with h1 h2 h3 h4 h5
    · exact ⟨cur.content, rfl⟩
    · exact ih cur (some line) hrest
    · exact absurd h3 hline.1
    · exact absurd h4 hline.2
    · exact ih cur pending hrest
    · exact ih { cur with content := cur.content ++ [line] } pending hrest

theorem build_go_content_inv (lines : List String) :
    ∀ (cur : SectionNode) (pending : Option String),
    (∀ s ∈ cur.content, ¬ classify_line s = "section_number") →
    ∀ n ∈ build_go lines cur pending, ∀ s ∈ n.content, ¬ classify_line s = "section_number" := by
  induction lines with
  | nil =>
    intro cur pending hcur n hn
    rw [build_go, List.mem_singleton] at hn
    subst hn
    exact hcur
  | cons line rest ih =>
    intro cur pending hcur n hn
    simp only [build_go] at hn
    split_ifs at hn with h1 h2 h3 h4 h5
    · rw [List.mem_singleton] at hn; subst hn; exact hcur
    · exact ih cur (some line) hcur n hn
    · rw [List.mem_cons] at hn
      rcases hn with hn | hn
      · subst hn; exact hcur
      · exact ih _ none (by simp) n hn
    · rw [List.mem_cons] at hn
      rcases hn with hn | hn
      · subst hn; exact hcur
      · exact ih _ pending (by simp) n hn
    · exact ih cur pending hcur n hn
    · refine ih { cur with content := cur.content ++ [line] } pending ?_ n hn
      intro s hs
      rcases List.mem_append.mp hs with hs | hs
      · exact hcur s hs
      · rw [List.mem_singleton] at hs; subst hs; exact h2

theorem build_go_stop (pre : List String) :
    ∀ (r : String) (post : List String) (cur : SectionNode) (pending : Option String),
    (∀ l ∈ pre, ¬ classify_line l = "references") →
    classify_line r = "references" →
    build_go (pre ++ r :: post) cur pending = build_go pre cur pending := by
  induction pre with
  | nil =>
    intro r post cur pending _ hr
    simp only [List.nil_append, build_go, if_pos hr]
  | cons l pre' ih =>
    intro r post cur pending h hr
    have hl : ¬ classify_line l = "references" := h l (by simp)
    have h' : ∀ x ∈ pre', ¬ classify_line x = "references" := fun x hx => h x (by simp [hx])
    simp only [List.cons_append, build_go, List.append_eq]
    split_ifs with h1 h2 h3 h4
    · exact ih r post cur (some l) h' hr
    · rw [ih r post _ none h' hr]
    · rw [ih r post _ pending h' hr]
    · exact ih r post cur pending h' hr
    · exact ih r post _ pending h' hr

/-- C1: for every input string, build_sections yields a non-empty
sequence whose first node is the preamble and whose other nodes are all
section or subsection nodes; when no line classifies as section or
subsection (in particular for empty input) the result is exactly one
preamble node and the headers-only projection is empty. -/
theorem C1_build_sections_preamble :
    ∀ raw : String,
      build_sections raw ≠ [] ∧
      (∀ n, (build_sections raw).head? = some n → n.type = "preamble") ∧
      (∀ n ∈ (build_sections raw).tail, n.type = "section" ∨ n.type = "subsection") ∧
      (((prepare_lines raw).all fun l =>
          !(classify_line l == "section") && !(classify_line l == "subsection")) = true →
        ∃ c, build_sections raw = [{ type := "preamble", header := none, content := c }] ∧
          headers_only (build_sections raw) = []) := by
  intro raw
  obtain ⟨c, rest, heq, hall⟩ :=
    build_go_shape (prepare_lines raw) { type := "preamble", header := none, content := [] } none
  have hbs : build_sections raw = { type := "preamble", header := none, content := c } :: rest := by
    unfold build_sections
    exact heq
  refine ⟨by rw [hbs]; simp, ?_, ?_, ?_⟩
  · intro n hn
    rw [hbs] at hn
    simp only [List.head?_cons, Option.some.injEq] at hn
    rw [← hn]
  · intro n hn
    rw [hbs] at hn
    simp only [List.tail_cons] at hn
    exact hall n hn
  · intro hb
    have hp : ∀ l ∈ prepare_lines raw,
        ¬ classify_line l = "section" ∧ ¬ classify_line l = "subsection" := by
      intro l hl
      have := List.all_eq_true.mp hb l hl
      simp only [Bool.and_eq_true, Bool.not_eq_true', beq_eq_false_iff_ne, ne_eq] at this
      exact this
    obtain ⟨c2, heq2⟩ :=
      build_go_no_heads (prepare_lines raw) { type := "preamble", header := none, content := [] }
        none hp
    have hbs2 : build_sections raw = [{ type := "preamble", header := none, content := c2 }] := by
      unfold build_sections
      exact heq2
    exact ⟨c2, hbs2, by rw [hbs2]; rfl⟩

/-- Witness for C1 at the concrete input with no section-like line. -/
theorem C1_witness :
    ((prepare_lines "hello world").all fun l =>
        !(classify_line l == "section") && !(classify_line l == "subsection")) = true ∧
    (∃ c, build_sections "hello world" = [{ type := "preamble", header := none, content := c }] ∧
      headers_only (build_sections "hello world") = []) :=
  ⟨by decide, (C1_build_sections_preamble "hello world").2.2.2 (by decide)⟩

/-- C2 as amended: a section_number line is never appended to any
node's content; at the next section line the pending number is prefixed
with a single space and the slot cleared; at a subsection line the
pending number is not merged into the subsection header but it is
retained in the slot (not dropped, contrary to the original claim); a
pending number held at end of input or at the references boundary is
discarded with no node emitted; and the two-line input of the claim
produces a single section node headed with the merged number. -/
theorem C2_pending_number_lifecycle :
    (∀ (raw l : String) (n : SectionNode), classify_line l = "section_number" →
      n ∈ build_sections raw → ¬ l ∈ n.content)
    ∧ (∀ (ls : List String) (cur : SectionNode) (p l : String),
        classify_line l = "section" → ¬ p = "" →
        build_go (l :: ls) cur (some p) =
          cur :: build_go ls { type := "section", header := some (p ++ " " ++ l), content := [] } none)
    ∧ (∀ (ls : List String) (cur : SectionNode) (pending : Option String) (l : String),
        classify_line l = "subsection" →
        build_go (l :: ls) cur pending =
          cur :: build_go ls { type := "subsection", header := some l, content := [] } pending)
    ∧ (∀ (cur : SectionNode) (p : String), build_go [] cur (some p) = [cur])
    ∧ (∀ (ls : List String) (cur : SectionNode) (p l : String),
        classify_line l = "references" → build_go (l :: ls) cur (some p) = [cur])
    ∧ build_sections "3.\nMethodology" =
        [{ type := "preamble", header := none, content := [] },
         { type := "section", header := some "3. Methodology", content := [] }] := by
  refine ⟨?_, ?_, ?_, ?_, ?_, ?_⟩
  · intro raw l n hl hn hmem
    unfold build_sections at hn
    exact build_go_content_inv (prepare_lines raw)
      { type := "preamble", header := none, content := [] } none (by simp) n hn l hmem hl
  · intro ls cur p l h hp
    simp only [build_go, h, mergedHeader]
    simp [hp]
  · intro ls cur pending l h
    simp only [build_go, h]
    simp
  · intro cur p
    rfl
  · intro ls cur p l h
    simp only [build_go, h]
    simp
  · decide

/-- Counterexample to C2 as stated: a pending number line followed by a
subsection line is not dropped; it survives the subsection and is merged
into the next section header. -/
theorem C2_counterexample :
    build_sections "3.\n2.1 Setup\nIntroduction" =
      [{ type := "preamble", header := none, content := [] },
       { type := "subsection", header := some "2.1 Setup", content := [] },
       { type := "section", header := some "3. Introduction", content := [] }] := by
  decide

/-- Witness for C2 at concrete inputs. -/
theorem C2_witness :
    build_go ["1 Intro"] { type := "preamble", header := none, content := [] } (some "3.") =
      { type := "preamble", header := none, content := ([] : List String) } ::
        build_go [] { type := "section", header := some "3. 1 Intro", content := [] } none ∧
    build_go ["2.1 Setup"] { type := "preamble", header := none, content := [] } (some "3.") =
      { type := "preamble", header := none, content := ([] : List String) } ::
        build_go [] { type := "subsection", header := some "2.1 Setup", content := [] } (some "3.") ∧
    build_go [] { type := "preamble", header := none, content := ([] : List String) } (some "3.") =
      [{ type := "preamble", header := none, content := [] }] ∧
    build_go ["References"] { type := "preamble", header := none, content := [] } (some "3.") =
      [{ type := "preamble", header := none, content := [] }] ∧
    ¬ ("3." : String) ∈
      ({ type := "section", header := some "3. Methodology", content := [] } : SectionNode).content :=
  ⟨C2_pending_number_lifecycle.2.1 [] _ "3." "1 Intro" (by decide) (by decide),
   C2_pending_number_lifecycle.2.2.1 [] _ (some "3.") "2.1 Setup" (by decide),
   C2_pending_number_lifecycle.2.2.2.1 _ "3.",
   C2_pending_number_lifecycle.2.2.2.2.1 [] _ "3." "References" (by decide),
   C2_pending_number_lifecycle.1 "3.\nMethodology" "3."
     { type := "section", header := some "3. Methodology", content := [] }
     (by decide) (by decide)⟩

/-- C4 as amended: a line consisting solely of the heading references or
referencias (any case, optional trailing whitespace) classifies as
references — the source does not recognise bibliography here — and
build_sections stops at the first such line, so no later line
contributes to any node. -/
theorem C4_references_stop :
    (∀ (l : String) (t : List Char),
      (lowerL l.data = strL "references" ++ t ∨ lowerL l.data = strL "referencias" ++ t) →
      t.all isPySpace = true →
      classify_line l = "references")
    ∧ (∀ (pre post : List String) (r : String) (cur : SectionNode) (pending : Option String),
        (∀ x ∈ pre, ¬ classify_line x = "references") →
        classify_line r = "references" →
        build_go (pre ++ r :: post) cur pending = build_go pre cur pending) := by
  constructor
  · intro l t h ht
    have hm : matchReferences (lowerL l.data) = true := by
      rcases h with h | h <;> rw [matchReferences, h] <;>
        simp [dropPfx?, strL, dropPfx_append, ht]
    rw [classify_line, classifyCore, if_pos hm]
  · intro pre post r cur pending h hr
    exact build_go_stop pre r post cur pending h hr

/-- Counterexample to C4 as stated: a line consisting solely of the
bibliography heading is classified content, not references. -/
theorem C4_counterexample :
    classify_line "Bibliography" = "content" ∧ ¬ classify_line "Bibliography" = "references" := by
  decide

/-- Witness for C4 at concrete inputs. -/
theorem C4_witness :
    classify_line "References  " = "references" ∧
    build_go (["hello"] ++ "References" :: ["junk"])
        { type := "preamble", header := none, content := [] } none =
      build_go ["hello"] { type := "preamble", header := none, content := [] } none :=
  ⟨C4_references_stop.1 "References  " [' ', ' '] (Or.inl (by decide)) (by decide),
   C4_references_stop.2 ["hello"] ["junk"] "References" _ none
     (by intro x hx; simp only [List.mem_singleton] at hx; subst hx; decide) (by decide)⟩

/-- C10: a line that is exactly a bare abstract, resumen, keywords,
index terms or palabras clave heading, with no following separator
character, classifies as content and is appended to the current node's
content by the build_sections loop. -/
theorem C10_bare_headings_are_content :
    ∀ line : String,
      (lowerL line.data = strL "abstract" ∨ lowerL line.data = strL "resumen" ∨
       lowerL line.data = strL "keywords" ∨ lowerL line.data = strL "index terms" ∨
       lowerL line.data = strL "palabras clave") →
      classify_line line = "content" ∧
      ∀ (rest : List String) (cur : SectionNode) (pending : Option String),
        build_go (line :: rest) cur pending =
          build_go rest { type := cur.type, header := cur.header, content := cur.content ++ [line] }
            pending := by
  intro line h
  have hc : classify_line line = "content" := by
    rcases h with h | h | h | h | h <;> rw [classify_line, h] <;> decide
  refine ⟨hc, ?_⟩
  intro rest cur pending
  simp only [build_go, hc]
  rw [if_neg (by decide), if_neg (by decide), if_neg (by decide), if_neg (by decide),
    if_neg (by decide)]

/-- Witness for C10 at the concrete bare heading. -/
theorem C10_witness :
    classify_line "Abstract" = "content" ∧
    build_go ["Abstract"] { type := "preamble", header := none, content := [] } none =
      build_go [] { type := "preamble", header := none, content := ["Abstract"] } none :=
  ⟨(C10_bare_headings_are_content "Abstract" (Or.inl (by decide))).1,
   (C10_bare_headings_are_content "Abstract" (Or.inl (by decide))).2 [] _ none⟩

theorem pySpace_not_digit {c : Char} (h : isPySpace c = true) : isAsciiDigit c = false := by
  by_contra hd
  rw [Bool.not_eq_false, isAsciiDigit, Bool.and_eq_true, decide_eq_true_eq,
    decide_eq_true_eq] at hd
  unfold isPySpace at h
  simp only [Bool.or_eq_true, beq_iff_eq, Bool.and_eq_true, decide_eq_true_eq] at h
  omega

theorem takeDigits1_some {l r : List Char} (h : takeDigits1 l = some r) :
    ∃ c cs, l = c :: cs ∧ isAsciiDigit c = true ∧ r = cs.dropWhile isAsciiDigit := by
  cases l with
  | nil => simp [takeDigits1] at h
  | cons c cs =>
    by_cases hc : isAsciiDigit c = true
    · simp only [takeDigits1] at h
      rw [if_pos hc] at h
      exact ⟨c, cs, rfl, hc, (Option.some.inj h).symm⟩
    · simp only [takeDigits1] at h
      rw [if_neg hc] at h
      exact absurd h (by simp)

theorem expectSpaces1_some {r r' : List Char} (h : expectSpaces1 r = some r') :
    ∃ c cs, r = c :: cs ∧ isPySpace c = true ∧ r' = cs.dropWhile isPySpace := by
  cases r with
  | nil => simp [expectSpaces1] at h
  | cons c cs =>
    by_cases hc : isPySpace c = true
    · simp only [expectSpaces1] at h
      rw [if_pos hc] at h
      exact ⟨c, cs, rfl, hc, (Option.some.inj h).symm⟩
    · simp only [expectSpaces1] at h
      rw [if_neg hc] at h
      exact absurd h (by simp)

theorem numTokAux_digit {c : Char} (cs : List Char) (hc : isAsciiDigit c = true) :
    numTokAux (c :: cs) = (c :: (numTokAux cs).1, (numTokAux cs).2) := by
  rw [numTokAux.eq_def]
  simp [hc]

theorem numTokAux_dot_digit {d : Char} (ds : List Char) (hd : isAsciiDigit d = true) :
    numTokAux ('.' :: d :: ds) = ('.' :: d :: (numTokAux ds).1, (numTokAux ds).2) := by
  rw [numTokAux.eq_def]
  simp [hd, (by decide : isAsciiDigit '.' = false)]

theorem numTokAux_dot_stop {d : Char} (ds : List Char) (hd : isAsciiDigit d = false) :
    numTokAux ('.' :: d :: ds) = ([], '.' :: d :: ds) := by
  rw [numTokAux.eq_def]
  simp [hd, (by decide : isAsciiDigit '.' = false)]

theorem numTokAux_stop {c : Char} (cs : List Char) (hc : isAsciiDigit c = false)
    (hdot : ¬ c = '.') : numTokAux (c :: cs) = ([], c :: cs) := by
  rw [numTokAux.eq_def]
  simp [hc, hdot]

theorem numTokAux_span : ∀ cs : List Char,
    (∀ d es, cs.dropWhile isAsciiDigit = '.' :: d :: es → isAsciiDigit d = false) →
    numTokAux cs = (cs.takeWhile isAsciiDigit, cs.dropWhile isAsciiDigit) := by
  intro cs
  induction cs with
  | nil => intro _; rfl
  | cons c cs' ih =>
    intro h
    by_cases hc : isAsciiDigit c = true
    · have hd : ∀ d es, cs'.dropWhile isAsciiDigit = '.' :: d :: es → isAsciiDigit d = false := by
        intro d es he
        exact h d es (by rw [List.dropWhile_cons, if_pos hc]; exact he)
      rw [numTokAux_digit cs' hc, ih hd, List.takeWhile_cons, List.dropWhile_cons,
        if_pos hc, if_pos hc]
    · have hc' : isAsciiDigit c = false := by simpa using hc
      have htw : (c :: cs').takeWhile isAsciiDigit = [] := by
        rw [List.takeWhile_cons, if_neg hc]
      have hdw : (c :: cs').dropWhile isAsciiDigit = c :: cs' := by
        rw [List.dropWhile_cons, if_neg hc]
      by_cases hdot : c = '.'
      · subst hdot
        cases cs' with
        | nil =>
          rw [htw, hdw]
          decide
        | cons d ds =>
          have hdd : isAsciiDigit d = false := h d ds hdw
          rw [htw, hdw, numTokAux_dot_stop ds hdd]
      · rw [htw, hdw, numTokAux_stop cs' hc' hdot]

theorem numTokAux_decomp : ∀ cs : List Char,
    cs = (numTokAux cs).1 ++ (numTokAux cs).2 ∧
    ∀ x ∈ (numTokAux cs).1, isAsciiDigit x = true ∨ x = '.' := by
  have H : ∀ (n : Nat) (cs : List Char), cs.length ≤ n →
      cs = (numTokAux cs).1 ++ (numTokAux cs).2 ∧
      ∀ x ∈ (numTokAux cs).1, isAsciiDigit x = true ∨ x = '.' := by
    intro n
    induction n with
    | zero =>
      intro cs hl
      have : cs = [] := List.length_eq_zero.mp (Nat.le_zero.mp hl)
      subst this
      exact ⟨by decide, by decide⟩
    | succ n ih =>
      intro cs hl
      cases cs with
      | nil => exact ⟨by decide, by decide⟩
      | cons c cs' =>
        simp only [List.length_cons] at hl
        by_cases hc : isAsciiDigit c = true
        · obtain ⟨h1, h2⟩ := ih cs' (by omega)
          rw [numTokAux_digit cs' hc]
          refine ⟨?_, ?_⟩
          · simp only [List.cons_append]
            rw [← h1]
          · intro x hx
            rcases List.mem_cons.mp hx with rfl | hx
            · exact Or.inl hc
            · exact h2 x hx
        · have hc' : isAsciiDigit c = false := by simpa using hc
          by_cases hdot : c = '.'
          · subst hdot
            cases cs' with
            | nil => exact ⟨by decide, by decide⟩
            | cons d ds =>
              by_cases hd : isAsciiDigit d = true
              · obtain ⟨h1, h2⟩ := ih ds (by simp only [List.length_cons] at hl; omega)
                rw [numTokAux_dot_digit ds hd]
                refine ⟨?_, ?_⟩
                · simp only [List.cons_append]
                  rw [← h1]
                · intro x hx
                  rcases List.mem_cons.mp hx with rfl | hx
                  · exact Or.inr rfl
                  rcases List.mem_cons.mp hx with rfl | hx
                  · exact Or.inl hd
                  · exact h2 x hx
              · have hd' : isAsciiDigit d = false := by simpa using hd
                rw [numTokAux_dot_stop ds hd']
                exact ⟨rfl, by simp⟩
          · rw [numTokAux_stop cs' hc' hdot]
            exact ⟨rfl, by simp⟩
  exact fun cs => H cs.length cs le_rfl

theorem parseNumToken_digit {c : Char} (cs : List Char) (hc : isAsciiDigit c = true) :
    parseNumToken (c :: cs) = some (c :: (numTokAux cs).1, (numTokAux cs).2) := by
  rw [parseNumToken.eq_def]
  simp [hc]

theorem parseNumToken_some {l t r : List Char} (h : parseNumToken l = some (t, r)) :
    l = t ++ r ∧ t ≠ [] ∧ ∀ x ∈ t, isAsciiDigit x = true ∨ x = '.' ∨ romanChar x = true := by
  cases l with
  | nil => simp [parseNumToken] at h
  | cons c cs =>
    by_cases hc : isAsciiDigit c = true
    · rw [parseNumToken_digit cs hc] at h
      simp only [Option.some.injEq, Prod.mk.injEq] at h
      obtain ⟨h1, h2⟩ := h
      subst h1
      subst h2
      obtain ⟨d1, d2⟩ := numTokAux_decomp cs
      refine ⟨?_, by simp, ?_⟩
      · simp only [List.cons_append]
        rw [← d1]
      · intro x hx
        rcases List.mem_cons.mp hx with rfl | hx
        · exact Or.inl hc
        · rcases d2 x hx with h | h
          · exact Or.inl h
          · exact Or.inr (Or.inl h)
    · have hc' : isAsciiDigit c = false := by simpa using hc
      by_cases hte : (c :: cs).takeWhile romanChar = []
      · have e : parseNumToken (c :: cs) = none := by
          rw [parseNumToken.eq_def]
          simp [hc', hte]
        rw [e] at h
        exact absurd h (by simp)
      · have e : parseNumToken (c :: cs) =
            some ((c :: cs).takeWhile romanChar, (c :: cs).dropWhile romanChar) := by
          rw [parseNumToken.eq_def]
          simp [hc', hte]
        rw [e] at h
        simp only [Option.some.injEq, Prod.mk.injEq] at h
        obtain ⟨h1, h2⟩ := h
        subst h1
        subst h2
        refine ⟨(List.takeWhile_append_dropWhile _ _).symm, hte, ?_⟩
        intro x hx
        exact Or.inr (Or.inr (List.mem_takeWhile_imp hx))

theorem parse_none_of_head {c : Char} (cs : List Char) (hd : isAsciiDigit c = false)
    (hr : romanChar c = false) : parseNumToken (c :: cs) = none := by
  simp [parseNumToken, hd, List.takeWhile_cons, hr]

theorem trail_not_sep {r : List Char} (h : numberTrail r = true) : sepThenSpacesText r = false := by
  rw [numberTrail] at h
  simp only [Bool.or_eq_true, decide_eq_true_eq] at h
  rcases h with (h | h) | h <;> subst h <;> decide

theorem match_pfx_some {w l : List Char} {f : List Char → Bool}
    (h : (match dropPfx? w l with | some r => f r | none => false) = true) :
    ∃ r, dropPfx? w l = some r := by
  cases hd : dropPfx? w l with
  | none => rw [hd] at h; exact absurd h (by simp)
  | some r => exact ⟨r, rfl⟩

theorem pfx_head (c : Char) (w' : List Char) {w l r : List Char} (hw : w = c :: w')
    (hd : dropPfx? w l = some r) : ∃ cs, l = c :: cs :=
  ⟨w' ++ r, by rw [dropPfx_eq_some hd, hw]; rfl⟩

theorem matchReferences_head {l : List Char} (h : matchReferences l = true) :
    ∃ cs, l = 'r' :: cs := by
  unfold matchReferences at h
  rw [Bool.or_eq_true] at h
  rcases h with h | h
  · obtain ⟨r, hd⟩ := match_pfx_some h
    exact pfx_head 'r' (strL "eferences") (by decide) hd
  · obtain ⟨r, hd⟩ := match_pfx_some h
    exact pfx_head 'r' (strL "eferencias") (by decide) hd

theorem matchFigureCaption_head {l : List Char} (h : matchFigureCaption l = true) :
    ∃ cs, l = 'f' :: cs := by
  unfold matchFigureCaption at h
  rw [Bool.or_eq_true] at h
  rcases h with h | h
  · obtain ⟨r, hd⟩ := match_pfx_some h
    exact pfx_head 'f' (strL "ig") (by decide) hd
  · obtain ⟨r, hd⟩ := match_pfx_some h
    exact pfx_head 'f' (strL "igure") (by decide) hd

theorem matchTableCaption_head {l : List Char} (h : matchTableCaption l = true) :
    ∃ cs, l = 't' :: cs := by
  unfold matchTableCaption at h
  obtain ⟨r, hd⟩ := match_pfx_some h
  exact pfx_head 't' (strL "able") (by decide) hd

theorem matchFigureInline_head {l : List Char} (h : matchFigureInline l = true) :
    ∃ cs, l = 'f' :: cs := by
  unfold matchFigureInline at h
  rw [Bool.or_eq_true] at h
  rcases h with h | h
  · obtain ⟨r, hd⟩ := match_pfx_some h
    exact pfx_head 'f' (strL "ig") (by decide) hd
  · obtain ⟨r, hd⟩ := match_pfx_some h
    exact pfx_head 'f' (strL "igure") (by decide) hd

theorem matchTableInline_head {l : List Char} (h : matchTableInline l = true) :
    ∃ cs, l = 't' :: cs := by
  unfold matchTableInline at h
  obtain ⟨r, hd⟩ := match_pfx_some h
  exact pfx_head 't' (strL "able") (by decide) hd

theorem wordThenSep_pfx {w l : List Char} (h : matchWordThenSep w l = true) :
    ∃ r, dropPfx? w l = some r := by
  unfold matchWordThenSep at h
  exact match_pfx_some h

theorem matchAbstract_head {l : List Char} (h : matchAbstract l = true) :
    (∃ cs, l = 'a' :: cs) ∨ (∃ cs, l = 'r' :: cs) := by
  unfold matchAbstract at h
  rw [Bool.or_eq_true] at h
  rcases h with h | h
  · obtain ⟨r, hd⟩ := wordThenSep_pfx h
    exact Or.inl (pfx_head 'a' (strL "bstract") (by decide) hd)
  · obtain ⟨r, hd⟩ := wordThenSep_pfx h
    exact Or.inr (pfx_head 'r' (strL "esumen") (by decide) hd)

theorem matchKeywords_shape {l : List Char} (h : matchKeywords l = true) :
    (∃ cs, l = 'k' :: cs) ∨ (∃ cs, l = 'p' :: cs) ∨ (∃ cs, l = 'i' :: 'n' :: cs) := by
  unfold matchKeywords at h
  rw [Bool.or_eq_true] at h
  rcases h with h | h
  · rw [Bool.or_eq_true] at h
    rcases h with h | h
    · obtain ⟨r, hd⟩ := wordThenSep_pfx h
      exact Or.inl (pfx_head 'k' (strL "eywords") (by decide) hd)
    · obtain ⟨r, hd⟩ := wordThenSep_pfx h
      refine Or.inr (Or.inr ⟨strL "dex terms" ++ r, ?_⟩)
      rw [dropPfx_eq_some hd,
        (by decide : strL "index terms" = 'i' :: 'n' :: strL "dex terms")]
      rfl
  · obtain ⟨r, hd⟩ := wordThenSep_pfx h
    exact Or.inr (Or.inl (pfx_head 'p' (strL "alabras clave") (by decide) hd))

theorem containsSub_cons_mem {c : Char} {p l : List Char} (h : containsSub (c :: p) l = true) :
    c ∈ l := by
  induction l with
  | nil => simp [containsSub] at h
  | cons d ds ih =>
    rw [containsSub, Bool.or_eq_true] at h
    rcases h with h | h
    · by_cases hd : d = c
      · subst hd
        exact List.mem_cons_self _ _
      · simp only [dropPfx?] at h
        rw [if_neg hd] at h
        simp at h
    · exact List.mem_cons_of_mem _ (ih h)

theorem matchURL_mem {l : List Char} (h : matchURL l = true) : 'h' ∈ l ∨ 'w' ∈ l := by
  unfold matchURL at h
  rw [(by decide : strL "http://" = 'h' :: strL "ttp://"),
    (by decide : strL "https://" = 'h' :: strL "ttps://"),
    (by decide : strL "www." = 'w' :: strL "ww.")] at h
  rw [Bool.or_eq_true] at h
  rcases h with h | h
  · rw [Bool.or_eq_true] at h
    rcases h with h | h
    · exact Or.inl (containsSub_cons_mem h)
    · exact Or.inl (containsSub_cons_mem h)
  · exact Or.inr (containsSub_cons_mem h)

theorem digit_not_alpha {c : Char} (h : isAsciiDigit c = true) : pyIsAlphaChar c = false := by
  rw [isAsciiDigit, Bool.and_eq_true, decide_eq_true_eq, decide_eq_true_eq] at h
  by_contra ha
  rw [Bool.not_eq_false] at ha
  unfold pyIsAlphaChar at ha
  simp only [Bool.or_eq_true, Bool.and_eq_true, decide_eq_true_eq, beq_iff_eq,
    Bool.not_eq_true', beq_eq_false_iff_ne, ne_eq] at ha
  omega

theorem matchRQ_structure {l : List Char} (h : matchRQHeader l = true) :
    ∃ r2, takeDigits1 l = some ('.' :: r2) ∧ ∃ sp tl, r2 = sp :: tl ∧ isPySpace sp = true := by
  unfold matchRQHeader at h
  cases htd : takeDigits1 l with
  | none => rw [htd] at h; exact absurd h (by simp)
  | some rr =>
    rw [htd] at h
    cases rr with
    | nil => exact absurd h (by simp)
    | cons c' r2 =>
      simp only at h
      by_cases hdot : c' = '.'
      · subst hdot
        rw [if_pos rfl] at h
        unfold rqTail at h
        cases hes : expectSpaces1 r2 with
        | none => rw [hes] at h; exact absurd h (by simp)
        | some r3 =>
          obtain ⟨sp, tl, hr2, hsp, _⟩ := expectSpaces1_some hes
          exact ⟨r2, rfl, sp, tl, hr2, hsp⟩
      · rw [if_neg hdot] at h
        exact absurd h (by simp)

theorem equation_structure {l : List Char} (h : matchEquation l = true) :
    ∃ r2, takeDigits1 (parenStrip l) = some r2 ∧ (r2 = [] ∨ r2 = [')']) := by
  unfold matchEquation at h
  cases htd : takeDigits1 (parenStrip l) with
  | none => rw [htd] at h; exact absurd h (by simp)
  | some r2 =>
    rw [htd] at h
    simp only [Bool.or_eq_true, decide_eq_true_eq] at h
    exact ⟨r2, rfl, h⟩

theorem parse_i_n (cs : List Char) :
    parseNumToken ('i' :: 'n' :: cs) = some (['i'], 'n' :: cs) := by
  rw [parseNumToken.eq_def]
  simp [List.takeWhile_cons, List.dropWhile_cons, (by decide : isAsciiDigit 'i' = false),
    (by decide : romanChar 'i' = true), (by decide : romanChar 'n' = false)]

theorem classifyCore_number_only {l : List Char}
    (hno : matchSectionNumberOnly l = true) (hq : matchEquation l = false) :
    classifyCore l = "section_number" := by
  cases hp : parseNumToken l with
  | none =>
    unfold matchSectionNumberOnly at hno
    rw [hp] at hno
    exact absurd hno (by simp)
  | some tr =>
    obtain ⟨t, r⟩ := tr
    have htr : numberTrail r = true := by
      unfold matchSectionNumberOnly at hno
      rw [hp] at hno
      exact hno
    obtain ⟨hdec, hne, hchars⟩ := parseNumToken_some hp
    have hRef : matchReferences l = false := by
      cases hR : matchReferences l
      · rfl
      · obtain ⟨cs, hcs⟩ := matchReferences_head hR
        rw [hcs, parse_none_of_head cs (by decide) (by decide)] at hp
        exact absurd hp (by simp)
    have hFC : matchFigureCaption l = false := by
      cases hR : matchFigureCaption l
      · rfl
      · obtain ⟨cs, hcs⟩ := matchFigureCaption_head hR
        rw [hcs, parse_none_of_head cs (by decide) (by decide)] at hp
        exact absurd hp (by simp)
    have hTC : matchTableCaption l = false := by
      cases hR : matchTableCaption l
      · rfl
      · obtain ⟨cs, hcs⟩ := matchTableCaption_head hR
        rw [hcs, parse_none_of_head cs (by decide) (by decide)] at hp
        exact absurd hp (by simp)
    have hFI : matchFigureInline l = false := by
      cases hR : matchFigureInline l
      · rfl
      · obtain ⟨cs, hcs⟩ := matchFigureInline_head hR
        rw [hcs, parse_none_of_head cs (by decide) (by decide)] at hp
        exact absurd hp (by simp)
    have hTI : matchTableInline l = false := by
      cases hR : matchTableInline l
      · rfl
      · obtain ⟨cs, hcs⟩ := matchTableInline_head hR
        rw [hcs, parse_none_of_head cs (by decide) (by decide)] at hp
        exact absurd hp (by simp)
    have hAbs : matchAbstract l = false := by
      cases hR : matchAbstract l
      · rfl
      · rcases matchAbstract_head hR with ⟨cs, hcs⟩ | ⟨cs, hcs⟩ <;>
          rw [hcs, parse_none_of_head cs (by decide) (by decide)] at hp <;>
          exact absurd hp (by simp)
    have hKw : matchKeywords l = false := by
      cases hR : matchKeywords l
      · rfl
      · rcases matchKeywords_shape hR with ⟨cs, hcs⟩ | ⟨cs, hcs⟩ | ⟨cs, hcs⟩
        · rw [hcs, parse_none_of_head cs (by decide) (by decide)] at hp
          exact absurd hp (by simp)
        · rw [hcs, parse_none_of_head cs (by decide) (by decide)] at hp
          exact absurd hp (by simp)
        · rw [hcs, parse_i_n cs] at hp
          simp only [Option.some.injEq, Prod.mk.injEq] at hp
          obtain ⟨hp1, hp2⟩ := hp
          rw [← hp2] at htr
          rw [numberTrail] at htr
          simp at htr
    have hRQ : matchRQHeader l = false := by
      cases hR : matchRQHeader l
      · rfl
      · exfalso
        obtain ⟨r2, htd, sp, tl, hr2, hsp⟩ := matchRQ_structure hR
        obtain ⟨c0, cs0, hl0, hdig, hdw⟩ := takeDigits1_some htd
        have hspan : numTokAux cs0 = (cs0.takeWhile isAsciiDigit, cs0.dropWhile isAsciiDigit) := by
          apply numTokAux_span
          intro d es he
          rw [← hdw, hr2] at he
          simp only [List.cons.injEq] at he
          rw [he.2.1] at hsp
          exact pySpace_not_digit hsp
        rw [hl0, parseNumToken_digit cs0 hdig, hspan, ← hdw] at hp
        simp only [Option.some.injEq, Prod.mk.injEq] at hp
        obtain ⟨hp1, hp2⟩ := hp
        rw [← hp2, hr2, numberTrail] at htr
        simp at htr
    have hURL : matchURL l = false := by
      cases hR : matchURL l
      · rfl
      · exfalso
        have hall : ∀ x ∈ l, isAsciiDigit x = true ∨ x = '.' ∨ x = ')' ∨ romanChar x = true := by
          intro x hx
          rw [hdec] at hx
          rcases List.mem_append.mp hx with hx | hx
          · rcases hchars x hx with h | h | h
            · exact Or.inl h
            · exact Or.inr (Or.inl h)
            · exact Or.inr (Or.inr (Or.inr h))
          · rw [numberTrail] at htr
            simp only [Bool.or_eq_true, decide_eq_true_eq] at htr
            rcases htr with (h0 | h0) | h0
            · rw [h0] at hx
              simp at hx
            · rw [h0] at hx
              simp only [List.mem_singleton] at hx
              exact Or.inr (Or.inl hx)
            · rw [h0] at hx
              simp only [List.mem_singleton] at hx
              exact Or.inr (Or.inr (Or.inl hx))
        rcases matchURL_mem hR with hc | hc <;>
          rcases hall _ hc with h | h | h | h <;>
          exact absurd h (by decide)
    unfold classifyCore
    rw [hRef, hFC, hTC, hFI, hTI, hq, hRQ, hURL, hAbs, hKw, hno]
    simp

/-- C5 as amended: a line consisting solely of a section-numbering token
with an optional trailing period or parenthesis classifies as
section_number, unless the line also matches the bare-integer equation
pattern (a plain integer, optionally parenthesised, such as 3 or 3)),
which the earlier equation rule classifies as noise. -/
theorem C5_section_number_rule :
    ∀ line : String,
      matchSectionNumberOnly (lowerL line.data) = true →
      matchEquation (lowerL line.data) = false →
      classify_line line = "section_number" := by
  intro line hno hq
  exact classifyCore_number_only hno hq

/-- Counterexample to C5 as stated: the line consisting solely of the
numbering token 3 matches the equation-noise rule first and is
classified noise, not section_number. -/
theorem C5_counterexample :
    matchSectionNumberOnly (lowerL "3".data) = true ∧ classify_line "3" = "noise" := by
  constructor
  · decide
  · decide

/-- Witness for C5 at the concrete line 3. with a trailing period. -/
theorem C5_witness :
    matchSectionNumberOnly (lowerL "3.".data) = true ∧
    matchEquation (lowerL "3.".data) = false ∧
    classify_line "3." = "section_number" :=
  ⟨by decide, by decide, C5_section_number_rule "3." (by decide) (by decide)⟩

theorem classifyCore_section_rule {l tok : List Char}
    (hsl : matchSectionLine l = some tok)
    (hcap : looksLikeCaption l = false)
    (hurl : matchURL l = false) :
    classifyCore l = (if isAlphaTok tok = true then "section"
      else if numeric_depth tok = 1 then "section" else "subsection") := by
  cases hp : parseNumToken l with
  | none =>
    unfold matchSectionLine at hsl
    rw [hp] at hsl
    exact absurd hsl (by simp)
  | some tr =>
    obtain ⟨t, r⟩ := tr
    unfold matchSectionLine at hsl
    rw [hp] at hsl
    have hsl2 : (if sepThenSpacesText r = true then some t else none) = some tok := hsl
    have hsr : sepThenSpacesText r = true ∧ t = tok := by
      by_cases hs : sepThenSpacesText r = true
      · rw [if_pos hs] at hsl2
        exact ⟨hs, Option.some.inj hsl2⟩
      · rw [if_neg hs] at hsl2
        exact absurd hsl2 (by simp)
    obtain ⟨hsep, htok⟩ := hsr
    subst htok
    obtain ⟨hdec, hnemp, hchars⟩ := parseNumToken_some hp
    have hRef : matchReferences l = false := by
      cases hR : matchReferences l
      · rfl
      · obtain ⟨cs, hcs⟩ := matchReferences_head hR
        rw [hcs, parse_none_of_head cs (by decide) (by decide)] at hp
        exact absurd hp (by simp)
    have hFC : matchFigureCaption l = false := by
      cases hR : matchFigureCaption l
      · rfl
      · obtain ⟨cs, hcs⟩ := matchFigureCaption_head hR
        rw [hcs, parse_none_of_head cs (by decide) (by decide)] at hp
        exact absurd hp (by simp)
    have hTC : matchTableCaption l = false := by
      cases hR : matchTableCaption l
      · rfl
      · obtain ⟨cs, hcs⟩ := matchTableCaption_head hR
        rw [hcs, parse_none_of_head cs (by decide) (by decide)] at hp
        exact absurd hp (by simp)
    have hFI : matchFigureInline l = false := by
      cases hR : matchFigureInline l
      · rfl
      · obtain ⟨cs, hcs⟩ := matchFigureInline_head hR
        rw [hcs, parse_none_of_head cs (by decide) (by decide)] at hp
        exact absurd hp (by simp)
    have hTI : matchTableInline l = false := by
      cases hR : matchTableInline l
      · rfl
      · obtain ⟨cs, hcs⟩ := matchTableInline_head hR
        rw [hcs, parse_none_of_head cs (by decide) (by decide)] at hp
        exact absurd hp (by simp)
    have hAbs : matchAbstract l = false := by
      cases hR : matchAbstract l
      · rfl
      · rcases matchAbstract_head hR with ⟨cs, hcs⟩ | ⟨cs, hcs⟩ <;>
          rw [hcs, parse_none_of_head cs (by decide) (by decide)] at hp <;>
          exact absurd hp (by simp)
    have hKw : matchKeywords l = false := by
      cases hR : matchKeywords l
      · rfl
      · rcases matchKeywords_shape hR with ⟨cs, hcs⟩ | ⟨cs, hcs⟩ | ⟨cs, hcs⟩
        · rw [hcs, parse_none_of_head cs (by decide) (by decide)] at hp
          exact absurd hp (by simp)
        · rw [hcs, parse_none_of_head cs (by decide) (by decide)] at hp
          exact absurd hp (by simp)
        · rw [hcs, parse_i_n cs] at hp
          simp only [Option.some.injEq, Prod.mk.injEq] at hp
          obtain ⟨hp1, hp2⟩ := hp
          rw [← hp2] at hsep
          have hcalc : sepThenSpacesText ('n' :: cs) = false := by
            simp only [sepThenSpacesText]
            rw [if_neg (by decide)]
            simp only [spacesThenSomething]
            simp [(by decide : isPySpace 'n' = false)]
          rw [hcalc] at hsep
          exact absurd hsep (by simp)
    have hEqF : matchEquation l = false := by
      cases hE : matchEquation l
      · rfl
      · exfalso
        obtain ⟨r2, htd, hr2⟩ := equation_structure hE
        cases l with
        | nil =>
          rw [show parseNumToken ([] : List Char) = none from rfl] at hp
          exact absurd hp (by simp)
        | cons c cs =>
          by_cases hpar : c = '('
          · subst hpar
            rw [parse_none_of_head cs (by decide) (by decide)] at hp
            exact absurd hp (by simp)
          · have hps : parenStrip (c :: cs) = c :: cs := by
              show (if c = '(' then cs else c :: cs) = c :: cs
              rw [if_neg hpar]
            rw [hps] at htd
            obtain ⟨c0, cs0, hl0, hdig, hdw⟩ := takeDigits1_some htd
            injection hl0 with hi1 hi2
            subst hi1
            subst hi2
            have hspan : numTokAux cs =
                (cs.takeWhile isAsciiDigit, cs.dropWhile isAsciiDigit) := by
              apply numTokAux_span
              intro d es he
              rw [← hdw] at he
              rcases hr2 with h0 | h0 <;> rw [h0] at he <;> simp at he
            rw [parseNumToken_digit cs hdig, hspan, ← hdw] at hp
            simp only [Option.some.injEq, Prod.mk.injEq] at hp
            obtain ⟨hp1, hp2⟩ := hp
            rw [← hp2] at hsep
            rcases hr2 with h0 | h0 <;> rw [h0] at hsep <;>
              exact absurd hsep (by decide)
    have hNO : matchSectionNumberOnly l = false := by
      unfold matchSectionNumberOnly
      rw [hp]
      cases hb : numberTrail r
      · exact hb
      · rw [trail_not_sep hb] at hsep
        exact absurd hsep (by simp)
    cases hRQb : matchRQHeader l with
    | true =>
      obtain ⟨r2, htd, sp, tl, hr2, hsp⟩ := matchRQ_structure hRQb
      obtain ⟨c0, cs0, hl0, hdig, hdw⟩ := takeDigits1_some htd
      have hspan : numTokAux cs0 = (cs0.takeWhile isAsciiDigit, cs0.dropWhile isAsciiDigit) := by
        apply numTokAux_span
        intro d es he
        rw [← hdw, hr2] at he
        simp only [List.cons.injEq] at he
        rw [he.2.1] at hsp
        exact pySpace_not_digit hsp
      rw [hl0, parseNumToken_digit cs0 hdig, hspan] at hp
      simp only [Option.some.injEq, Prod.mk.injEq] at hp
      obtain ⟨hp1, hp2⟩ := hp
      have htdig : ∀ x ∈ t, isAsciiDigit x = true := by
        intro x hx
        rw [← hp1] at hx
        rcases List.mem_cons.mp hx with rfl | hx
        · exact hdig
        · exact List.mem_takeWhile_imp hx
      have halpha : isAlphaTok t = false := by
        unfold isAlphaTok
        rw [← hp1]
        simp [digit_not_alpha hdig]
      have hdepth : numeric_depth t = 1 := by
        unfold numeric_depth
        have hz : t.count '.' = 0 := by
          rw [List.count_eq_zero]
          intro hmem
          exact absurd (htdig '.' hmem) (by decide)
        omega
      unfold classifyCore
      simp [hRef, hFC, hTC, hFI, hTI, hEqF, hRQb, halpha, hdepth]
    | false =>
      have hms : matchSectionLine l = some t := by
        unfold matchSectionLine
        rw [hp]
        show (if sepThenSpacesText r = true then some t else none) = some t
        rw [if_pos hsep]
      unfold classifyCore
      simp [hRef, hFC, hTC, hFI, hTI, hEqF, hRQb, hurl, hAbs, hKw, hNO, hms, hcap]

/-- C3 as amended: a line starting with a section-numbering token
followed by other text, whose text does not look like a caption and
which contains no URL-like substring (an earlier rule classifies
URL-bearing lines as noise), classifies as section when the token is
alphabetic (a Roman numeral), as section when the Arabic token has no
dot, and as subsection when the Arabic token has one or more dots. -/
theorem C3_numbered_heading_rule :
    ∀ (line : String) (tok : List Char),
      matchSectionLine (lowerL line.data) = some tok →
      looksLikeCaption (lowerL line.data) = false →
      matchURL (lowerL line.data) = false →
      classify_line line = (if isAlphaTok tok = true then "section"
        else if numeric_depth tok = 1 then "section" else "subsection") := by
  intro line tok hsl hcap hurl
  exact classifyCore_section_rule hsl hcap hurl

/-- Counterexample to C3 as stated: a numbered, non-caption-like heading
line containing a URL is classified noise by the earlier URL rule, not
section. -/
theorem C3_counterexample :
    matchSectionLine (lowerL "1. See https://x.y".data) = some ['1'] ∧
    looksLikeCaption (lowerL "1. See https://x.y".data) = false ∧
    classify_line "1. See https://x.y" = "noise" := by
  refine ⟨by decide, by decide, by decide⟩

/-- Witness for C3 at concrete numbered headings. -/
theorem C3_witness :
    classify_line "II. Related Work" = "section" ∧
    classify_line "2.3 Results" = "subsection" :=
  ⟨by
    have h := C3_numbered_heading_rule "II. Related Work" ['i', 'i']
      (by decide) (by decide) (by decide)
    rw [h]
    decide,
   by
    have h := C3_numbered_heading_rule "2.3 Results" ['2', '.', '3']
      (by decide) (by decide) (by decide)
    rw [h]
    decide⟩

/-- C8: classify_line is deterministic and total: it is a pure function
of the line, so two runs agree definitionally, and every line receives
exactly one of the eight labels. -/
theorem C8_classifier_total :
    ∀ line : String,
      classify_line line = classify_line line ∧
      classify_line line ∈ (["references", "noise", "abstract", "keywords",
        "section_number", "section", "subsection", "content"] : List String) := by
  intro line
  refine ⟨rfl, ?_⟩
  show classifyCore (lowerL line.data) ∈ _
  generalize lowerL line.data = l
  unfold classifyCore
  by_cases h1 : matchReferences l = true
  · rw [if_pos h1]; decide
  · rw [if_neg h1]
    by_cases h2 : (matchFigureCaption l || matchTableCaption l || matchFigureInline l ||
        matchTableInline l || matchEquation l) = true
    · rw [if_pos h2]; decide
    · rw [if_neg h2]
      by_cases h3 : matchRQHeader l = true
      · rw [if_pos h3]; decide
      · rw [if_neg h3]
        by_cases h4 : matchURL l = true
        · rw [if_pos h4]; decide
        · rw [if_neg h4]
          by_cases h5 : matchAbstract l = true
          · rw [if_pos h5]; decide
          · rw [if_neg h5]
            by_cases h6 : matchKeywords l = true
            · rw [if_pos h6]; decide
            · rw [if_neg h6]
              by_cases h7 : matchSectionNumberOnly l = true
              · rw [if_pos h7]; decide
              · rw [if_neg h7]
                cases hm : matchSectionLine l with
                | some tok =>
                  show (if looksLikeCaption l = true then "noise"
                    else if isAlphaTok tok = true then "section"
                    else if numeric_depth tok = 1 then "section" else "subsection") ∈ _
                  by_cases h8 : looksLikeCaption l = true
                  · rw [if_pos h8]; decide
                  · rw [if_neg h8]
                    by_cases h9 : isAlphaTok tok = true
                    · rw [if_pos h9]; decide
                    · rw [if_neg h9]
                      by_cases h10 : numeric_depth tok = 1
                      · rw [if_pos h10]; decide
                      · rw [if_neg h10]; decide
                | none =>
                  show (if matchSectionTextOnly l = true then
                      (if looksLikeSection l = true then "section" else "noise")
                    else "content") ∈ _
                  by_cases h8 : matchSectionTextOnly l = true
                  · rw [if_pos h8]
                    by_cases h9 : looksLikeSection l = true
                    · rw [if_pos h9]; decide
                    · rw [if_neg h9]; decide
                  · rw [if_neg h8]; decide

theorem starter_of_phrase : ∀ l : List Char, matchSectionTextOnly l = true →
    ¬ l = strL "conclusione" → looksLikeSection l = true := by
  intro l h hne
  unfold matchSectionTextOnly at h
  rw [List.any_eq_true] at h
  obtain ⟨p, hp, hl⟩ := h
  rw [decide_eq_true_eq] at hl
  subst hl
  unfold sectionPhrases at hp
  fin_cases hp <;> first | decide | exact absurd rfl hne

/-- C9 as amended: for every line matching the bare-heading vocabulary
whose case-folded text is not conclusione, the first word is a valid
section starter, and the classifier with the starter sub-check removed
agrees with the classifier as written; the two differ exactly on lines
folding to conclusione, an artifact of the optional final s in the
conclusiones alternative, whose first word is not in the starter set. -/
theorem C9_starter_check_near_redundant :
    (∀ s : String, matchSectionTextOnly (lowerL s.data) = true →
      ¬ lowerL s.data = strL "conclusione" → looksLikeSection (lowerL s.data) = true)
    ∧ (∀ s : String, ¬ lowerL s.data = strL "conclusione" →
      classify_line s = classify_line_no_starter s) := by
  constructor
  · intro s h hne
    exact starter_of_phrase _ h hne
  · intro s hne
    show classifyCore (lowerL s.data) = classifyCoreNoStarter (lowerL s.data)
    revert hne
    generalize lowerL s.data = l
    intro hne
    unfold classifyCore classifyCoreNoStarter
    by_cases h1 : matchReferences l = true
    · rw [if_pos h1, if_pos h1]
    · rw [if_neg h1, if_neg h1]
      by_cases h2 : (matchFigureCaption l || matchTableCaption l || matchFigureInline l ||
          matchTableInline l || matchEquation l) = true
      · rw [if_pos h2, if_pos h2]
      · rw [if_neg h2, if_neg h2]
        by_cases h3 : matchRQHeader l = true
        · rw [if_pos h3, if_pos h3]
        · rw [if_neg h3, if_neg h3]
          by_cases h4 : matchURL l = true
          · rw [if_pos h4, if_pos h4]
          · rw [if_neg h4, if_neg h4]
            by_cases h5 : matchAbstract l = true
            · rw [if_pos h5, if_pos h5]
            · rw [if_neg h5, if_neg h5]
              by_cases h6 : matchKeywords l = true
              · rw [if_pos h6, if_pos h6]
              · rw [if_neg h6, if_neg h6]
                by_cases h7 : matchSectionNumberOnly l = true
                · rw [if_pos h7, if_pos h7]
                · rw [if_neg h7, if_neg h7]
                  cases hm : matchSectionLine l with
                  | some tok => rfl
                  | none =>
                    show (if matchSectionTextOnly l = true then
                        (if looksLikeSection l = true then "section" else "noise")
                      else "content") =
                      (if matchSectionTextOnly l = true then "section" else "content")
                    by_cases h8 : matchSectionTextOnly l = true
                    · rw [if_pos h8, if_pos h8, if_pos (starter_of_phrase _ h8 hne)]
                    · rw [if_neg h8, if_neg h8]

/-- Counterexample to C9 as stated: the line conclusione matches
RE_SECTION_TEXT_ONLY, its first word is not a valid starter, so the
noise branch of rule 9 is taken and the two classifiers differ there. -/
theorem C9_counterexample :
    matchSectionTextOnly (strL "conclusione") = true ∧
    classify_line "conclusione" = "noise" ∧
    classify_line_no_starter "conclusione" = "section" := by
  refine ⟨by decide, by decide, by decide⟩

/-- Witness for C9 at a concrete vocabulary line. -/
theorem C9_witness :
    ¬ lowerL "Results".data = strL "conclusione" ∧
    classify_line "Results" = classify_line_no_starter "Results" :=
  ⟨by decide, C9_starter_check_near_redundant.2 "Results" (by decide)⟩

theorem buildFreq_lookup : ∀ (lines : List (List Char)) (f : List Char → Nat) (key : List Char),
    buildFreq lines f key = f key +
      lines.countP (fun l2 => decide (¬ pyStripL l2 = []) &&
        decide (marginNormalize (pyStripL l2) = key)) := by
  intro lines
  induction lines with
  | nil => intro f key; simp [buildFreq]
  | cons line rest ih =>
    intro f key
    by_cases hb : pyStripL line = []
    · simp only [buildFreq]
      rw [if_pos hb, ih, List.countP_cons]
      simp [hb]
    · simp only [buildFreq]
      rw [if_neg hb, ih, List.countP_cons]
      by_cases hk : marginNormalize (pyStripL line) = key
      · subst hk
        simp [hb]
        omega
      · have h1 : (if key = marginNormalize (pyStripL line) then f key + 1 else f key) = f key :=
          if_neg (fun h => hk h.symm)
        rw [h1, if_neg (by simp [hk])]
        omega

theorem marginsGo_charact : ∀ (lines : List (List Char)) (freq : List Char → Nat) (pg rp : Bool),
    marginsGo freq lines pg rp =
      { filtered := lines.filter (fun l => decide (¬ pyStripL l = []) &&
          !((pyStripL l).all isAsciiDigit) &&
          !(decide (1 < freq (marginNormalize (pyStripL l))))),
        pageNumbersRemoved := pg || lines.any (fun l => decide (¬ pyStripL l = []) &&
          (pyStripL l).all isAsciiDigit),
        repeatedHeadersRemoved := rp || lines.any (fun l => decide (¬ pyStripL l = []) &&
          !((pyStripL l).all isAsciiDigit) &&
          decide (1 < freq (marginNormalize (pyStripL l)))) } := by
  intro lines
  induction lines with
  | nil => intro freq pg rp; simp [marginsGo]
  | cons line rest ih =>
    intro freq pg rp
    simp only [marginsGo]
    by_cases h1 : pyStripL line = []
    · rw [if_pos h1, ih]
      simp [h1, List.filter_cons, List.any_cons]
    · rw [if_neg h1]
      by_cases h2 : (pyStripL line).all isAsciiDigit = true
      · rw [if_pos h2, ih]
        simp [h1, h2, List.filter_cons, List.any_cons]
      · have h2' : (pyStripL line).all isAsciiDigit = false := by simpa using h2
        by_cases h3 : 1 < freq (marginNormalize (pyStripL line))
        · rw [if_neg h2, if_pos h3, ih]
          simp [h1, h2', h3, List.filter_cons, List.any_cons]
        · rw [if_neg h2, if_neg h3, ih]
          simp [h1, h2', h3, List.filter_cons, List.any_cons]

/-- C6: in the margin-removal stage a non-blank line is dropped exactly
when it consists solely of digits (setting pageNumbersRemoved) or its
digit-stripped, whitespace-collapsed, case-folded form occurs more than
once across the whole document (setting repeatedHeadersRemoved); every
other line, in particular one occurring exactly once, is retained in
original order. -/
theorem C6_remove_margins :
    ∀ text : List Char,
      (remove_margins text).filtered = (splitNl text).filter
        (fun l => decide (¬ pyStripL l = []) && !((pyStripL l).all isAsciiDigit) &&
          !(decide (1 < (splitNl text).countP (fun l2 => decide (¬ pyStripL l2 = []) &&
            decide (marginNormalize (pyStripL l2) = marginNormalize (pyStripL l)))))) ∧
      ((remove_margins text).pageNumbersRemoved = true ↔
        ∃ l ∈ splitNl text, ¬ pyStripL l = [] ∧ (pyStripL l).all isAsciiDigit = true) ∧
      ((remove_margins text).repeatedHeadersRemoved = true ↔
        ∃ l ∈ splitNl text, ¬ pyStripL l = [] ∧ (pyStripL l).all isAsciiDigit = false ∧
          1 < (splitNl text).countP (fun l2 => decide (¬ pyStripL l2 = []) &&
            decide (marginNormalize (pyStripL l2) = marginNormalize (pyStripL l)))) := by
  intro text
  have hfreq : ∀ l : List Char,
      buildFreq (splitNl text) (fun _ => 0) (marginNormalize (pyStripL l)) =
        (splitNl text).countP (fun l2 => decide (¬ pyStripL l2 = []) &&
          decide (marginNormalize (pyStripL l2) = marginNormalize (pyStripL l))) := by
    intro l
    rw [buildFreq_lookup, Nat.zero_add]
  unfold remove_margins
  rw [marginsGo_charact]
  refine ⟨?_, ?_, ?_⟩
  · apply List.filter_congr
    intro l _
    rw [hfreq l]
  · simp only [Bool.false_or]
    rw [List.any_eq_true]
    constructor
    · rintro ⟨l, hl, hp⟩
      simp only [Bool.and_eq_true, decide_eq_true_eq] at hp
      exact ⟨l, hl, hp.1, hp.2⟩
    · rintro ⟨l, hl, h1, h2⟩
      exact ⟨l, hl, by simp [h1, h2]⟩
  · simp only [Bool.false_or]
    rw [List.any_eq_true]
    constructor
    · rintro ⟨l, hl, hp⟩
      simp only [Bool.and_eq_true, decide_eq_true_eq, Bool.not_eq_true'] at hp
      refine ⟨l, hl, hp.1.1, hp.1.2, ?_⟩
      rw [← hfreq l]
      exact hp.2
    · rintro ⟨l, hl, h1, h2, h3⟩
      refine ⟨l, hl, ?_⟩
      rw [← hfreq l] at h3
      simp [h1, h2, h3]

/-- Witness for C6 at a concrete document with a repeated header, a
page number and a once-occurring line. -/
theorem C6_witness :
    (remove_margins (strL "Proc of ACM 2023\nabc\nProc of ACM 1999\n12\nkeep me")).filtered =
      [strL "abc", strL "keep me"] ∧
    (remove_margins (strL "Proc of ACM 2023\nabc\nProc of ACM 1999\n12\nkeep me")).pageNumbersRemoved
      = true ∧
    (remove_margins (strL "Proc of ACM 2023\nabc\nProc of ACM 1999\n12\nkeep me")).repeatedHeadersRemoved
      = true := by
  refine ⟨by decide, ?_, ?_⟩
  · exact (C6_remove_margins
      (strL "Proc of ACM 2023\nabc\nProc of ACM 1999\n12\nkeep me")).2.1.mpr
      ⟨strL "12", by decide, by decide, by decide⟩
  · exact (C6_remove_margins
      (strL "Proc of ACM 2023\nabc\nProc of ACM 1999\n12\nkeep me")).2.2.mpr
      ⟨strL "Proc of ACM 2023", by decide, by decide, by decide, by decide⟩

theorem wordAtFrom_zero (ws : List (List Char)) (prev : Option Char) (suffix : List Char) :
    wordAtFrom ws prev suffix 0 = ws.any (fun w => wordHereB w prev suffix) := by
  unfold wordAtFrom
  simp

theorem wordAtFrom_succ (ws : List (List Char)) (prev : Option Char) (c : Char)
    (cs : List Char) (k : Nat) :
    wordAtFrom ws prev (c :: cs) (k + 1) = wordAtFrom ws (some c) cs k := by
  unfold wordAtFrom
  have hprev : (if k + 1 = 0 then prev else (c :: cs).get? (k + 1 - 1)) =
      (if k = 0 then some c else cs.get? (k - 1)) := by
    cases k with
    | zero => simp
    | succ m => simp [List.get?_cons_succ]
  have hdrop : (c :: cs).drop (k + 1) = cs.drop k := List.drop_succ_cons
  rw [hprev, hdrop]

theorem searchAux_some_iff : ∀ (suffix : List Char) (ws : List (List Char)) (prev : Option Char)
    (i j : Nat),
    searchAux ws suffix prev i = some j ↔
      ∃ k, k ≤ suffix.length ∧ j = i + k ∧ wordAtFrom ws prev suffix k = true ∧
        ∀ m, m < k → wordAtFrom ws prev suffix m = false := by
  intro suffix
  induction suffix with
  | nil =>
    intro ws prev i j
    rw [searchAux]
    by_cases hany : ws.any (fun w => wordHereB w prev []) = true
    · rw [if_pos hany]
      constructor
      · intro h
        obtain rfl : i = j := Option.some.inj h
        exact ⟨0, by simp, by omega, by rw [wordAtFrom_zero]; exact hany, by omega⟩
      · rintro ⟨k, hk, rfl, _, _⟩
        have hk0 : k = 0 := Nat.le_zero.mp hk
        subst hk0
        rfl
    · rw [if_neg hany]
      show (none : Option Nat) = some j ↔ _
      constructor
      · intro h
        exact absurd h (by simp)
      · rintro ⟨k, hk, rfl, hat, _⟩
        have hk0 : k = 0 := Nat.le_zero.mp hk
        subst hk0
        rw [wordAtFrom_zero] at hat
        exact absurd hat hany
  | cons c cs ih =>
    intro ws prev i j
    rw [searchAux]
    by_cases hany : ws.any (fun w => wordHereB w prev (c :: cs)) = true
    · rw [if_pos hany]
      constructor
      · intro h
        obtain rfl : i = j := Option.some.inj h
        exact ⟨0, by simp, by omega, by rw [wordAtFrom_zero]; exact hany, by omega⟩
      · rintro ⟨k, hk, rfl, hat, hlt⟩
        cases k with
        | zero => rfl
        | succ m =>
          have h0 := hlt 0 (by omega)
          rw [wordAtFrom_zero] at h0
          rw [h0] at hany
          exact absurd hany (by simp)
    · have hany' : ws.any (fun w => wordHereB w prev (c :: cs)) = false := by simpa using hany
      rw [if_neg hany]
      show searchAux ws cs (some c) (i + 1) = some j ↔ _
      rw [ih ws (some c) (i + 1) j]
      constructor
      · rintro ⟨k, hk, rfl, hat, hlt⟩
        refine ⟨k + 1, by simp only [List.length_cons]; omega, by omega, ?_, ?_⟩
        · rw [wordAtFrom_succ]
          exact hat
        · intro m hm
          cases m with
          | zero =>
            rw [wordAtFrom_zero]
            exact hany'
          | succ m' =>
            rw [wordAtFrom_succ]
            exact hlt m' (by omega)
      · rintro ⟨k, hk, hj, hat, hlt⟩
        cases k with
        | zero =>
          rw [wordAtFrom_zero] at hat
          exact absurd hat hany
        | succ m =>
          refine ⟨m, by simp only [List.length_cons] at hk; omega, by omega, ?_, ?_⟩
          · rw [wordAtFrom_succ] at hat
            exact hat
          · intro m' hm'
            have h := hlt (m' + 1) (by omega)
            rw [wordAtFrom_succ] at h
            exact h

theorem searchAux_none_iff (suffix : List Char) (ws : List (List Char)) (prev : Option Char)
    (i : Nat) :
    searchAux ws suffix prev i = none ↔
      ∀ k, k ≤ suffix.length → wordAtFrom ws prev suffix k = false := by
  constructor
  · intro h k hk
    by_contra hb
    have hb' : wordAtFrom ws prev suffix k = true := by simpa using hb
    have hex : ∃ n, n ≤ suffix.length ∧ wordAtFrom ws prev suffix n = true := ⟨k, hk, hb'⟩
    have hspec := Nat.find_spec hex
    have hmin : ∀ m, m < Nat.find hex → wordAtFrom ws prev suffix m = false := by
      intro m hm
      have hnot := Nat.find_min hex hm
      have hmle : m ≤ suffix.length := le_trans (le_of_lt hm) hspec.1
      by_contra hmb
      exact hnot ⟨hmle, by simpa using hmb⟩
    have := (searchAux_some_iff suffix ws prev i (i + Nat.find hex)).mpr
      ⟨Nat.find hex, hspec.1, rfl, hspec.2, hmin⟩
    rw [h] at this
    exact absurd this (by simp)
  · intro hall
    cases hs : searchAux ws suffix prev i with
    | none => rfl
    | some j =>
      obtain ⟨k, hk, _, hat, _⟩ := (searchAux_some_iff suffix ws prev i j).mp hs
      rw [hall k hk] at hat
      exact absurd hat (by simp)

theorem wordAtFrom_none_eq (ws : List (List Char)) (text : List Char) (k : Nat) :
    wordAtFrom ws none text k = word_at ws text k := rfl

theorem find_word_some_iff (ws : List (List Char)) (text : List Char) (j : Nat) :
    find_word ws text = some j ↔
      j ≤ text.length ∧ word_at ws text j = true ∧ ∀ m, m < j → word_at ws text m = false := by
  unfold find_word
  rw [searchAux_some_iff]
  constructor
  · rintro ⟨k, hk, rfl, hat, hlt⟩
    rw [wordAtFrom_none_eq] at hat
    refine ⟨by omega, by simpa using hat, ?_⟩
    intro m hm
    have h := hlt m (by omega)
    rwa [wordAtFrom_none_eq] at h
  · rintro ⟨hj, hat, hlt⟩
    refine ⟨j, hj, by omega, by rwa [wordAtFrom_none_eq], ?_⟩
    intro m hm
    rw [wordAtFrom_none_eq]
    exact hlt m hm

theorem find_word_none_iff (ws : List (List Char)) (text : List Char) :
    find_word ws text = none ↔ ∀ k, k ≤ text.length → word_at ws text k = false := by
  unfold find_word
  rw [searchAux_none_iff]
  constructor
  · intro h k hk
    rw [← wordAtFrom_none_eq]
    exact h k hk
  · intro h k hk
    rw [wordAtFrom_none_eq]
    exact h k hk

theorem word_at_beyond {ws : List (List Char)} {text : List Char} {k : Nat}
    (hws : ∀ w ∈ ws, ¬ w = []) (hk : text.length < k) : word_at ws text k = false := by
  unfold word_at
  rw [List.any_eq_false]
  intro w hw
  have hdrop : text.drop k = [] := List.drop_eq_nil_of_le (le_of_lt hk)
  cases hwc : w with
  | nil => exact absurd hwc (hws w hw)
  | cons c cs =>
    rw [hdrop]
    intro hcontra
    unfold wordHereB at hcontra
    rw [show dropPfxCI? (c :: cs) [] = none from rfl] at hcontra
    exact absurd hcontra (by simp)

/-- C7: in the abstract-and-references stage, abstractDetected is set
exactly when a whole-word abstract or resumen occurs anywhere in the
stage input (and the output text never depends on that search);
everything strictly before the leftmost whole-word introduction (if any)
is discarded; then, if a whole-word references or bibliography occurs in
the remaining text, the leftmost occurrence and everything after it is
discarded and referencesRemoved is set; otherwise referencesRemoved
stays unset and only the final strip is applied. -/
theorem C7_remove_sections :
    ∀ text : List Char,
      ((remove_sections text).abstractDetected = true ↔
        ∃ k, word_at abstractWords text k = true) ∧
      (find_word introWords text = none →
        introCut text = text ∧ ∀ k, word_at introWords text k = false) ∧
      (∀ i, find_word introWords text = some i →
        introCut text = text.drop i ∧ word_at introWords text i = true ∧
        ∀ m, m < i → word_at introWords text m = false) ∧
      (find_word refsWords (introCut text) = none →
        (remove_sections text).referencesRemoved = false ∧
        (remove_sections text).text = pyStripL (introCut text) ∧
        ∀ k, word_at refsWords (introCut text) k = false) ∧
      (∀ i, find_word refsWords (introCut text) = some i →
        (remove_sections text).referencesRemoved = true ∧
        (remove_sections text).text = pyStripL ((introCut text).take i) ∧
        word_at refsWords (introCut text) i = true ∧
        ∀ m, m < i → word_at refsWords (introCut text) m = false) := by
  intro text
  have habs : (remove_sections text).abstractDetected =
      (find_word abstractWords text).isSome := by
    simp only [remove_sections]
    cases find_word refsWords (introCut text) <;> rfl
  refine ⟨?_, ?_, ?_, ?_, ?_⟩
  · rw [habs]
    constructor
    · intro h
      obtain ⟨j, hj⟩ := Option.isSome_iff_exists.mp h
      obtain ⟨_, hat, _⟩ := (find_word_some_iff _ _ _).mp hj
      exact ⟨j, hat⟩
    · rintro ⟨k, hk⟩
      cases hf : find_word abstractWords text with
      | some j => rfl
      | none =>
        have hall := (find_word_none_iff _ _).mp hf
        by_cases hkl : k ≤ text.length
        · rw [hall k hkl] at hk
          exact absurd hk (by simp)
        · rw [word_at_beyond (by decide) (by omega)] at hk
          exact absurd hk (by simp)
  · intro hf
    refine ⟨by unfold introCut; rw [hf], ?_⟩
    intro k
    by_cases hkl : k ≤ text.length
    · exact (find_word_none_iff _ _).mp hf k hkl
    · exact word_at_beyond (by decide) (by omega)
  · intro i hf
    obtain ⟨hle, hat, hlt⟩ := (find_word_some_iff _ _ _).mp hf
    exact ⟨by unfold introCut; rw [hf], hat, hlt⟩
  · intro hf
    have hrun : remove_sections text =
        { text := pyStripL (introCut text),
          abstractDetected := (find_word abstractWords text).isSome,
          referencesRemoved := false } := by
      simp only [remove_sections]
      rw [hf]
    refine ⟨by rw [hrun], by rw [hrun], ?_⟩
    intro k
    by_cases hkl : k ≤ (introCut text).length
    · exact (find_word_none_iff _ _).mp hf k hkl
    · exact word_at_beyond (by decide) (by omega)
  · intro i hf
    have hrun : remove_sections text =
        { text := pyStripL ((introCut text).take i),
          abstractDetected := (find_word abstractWords text).isSome,
          referencesRemoved := true } := by
      simp only [remove_sections]
      rw [hf]
    obtain ⟨hle, hat, hlt⟩ := (find_word_some_iff _ _ _).mp hf
    exact ⟨by rw [hrun], by rw [hrun], hat, hlt⟩

/-- Witness for C7 at a concrete stage input holding all three markers. -/
theorem C7_witness :
    (remove_sections (strL "t abstract u introduction body references z")).abstractDetected
      = true ∧
    introCut (strL "t abstract u introduction body references z") =
      (strL "t abstract u introduction body references z").drop 13 ∧
    (remove_sections (strL "t abstract u introduction body references z")).referencesRemoved
      = true ∧
    (remove_sections (strL "t abstract u introduction body references z")).text =
      strL "introduction body" := by
  have h := C7_remove_sections (strL "t abstract u introduction body references z")
  refine ⟨h.1.mpr ⟨2, by decide⟩, (h.2.2.1 13 (by decide)).1, ?_, ?_⟩
  · exact (h.2.2.2.2 18 (by decide)).1
  · have := (h.2.2.2.2 18 (by decide)).2.1
    rw [this]
    decide

end Yegi
